import Mathlib

/-!
Verification of the incident-report → MDX converter (Next.js route (strict
marker-based version) plus `lib/mdx/validator.ts` and `lib/mdx/tagger.ts`).

The TypeScript source is shallowly embedded below.  Conventions:

* JS strings are `String`; the source splits its input on `'\n'` at each
  phase boundary and re-joins with `'\n'`, which is the identity on lists of
  newline-free lines, so the pipeline is embedded at the line-list level
  (`List String`) with `String`-level wrappers that split once.
* JS `string.trim()` and the regex class `\s` use the JS whitespace set,
  embedded as `isJsWs`.
* Loops with a mutable index are embedded as fuel-based structural
  recursions; the fuel is the length of the remaining list, which bounds the
  number of iterations because every iteration consumes at least one element.
  This keeps every definition kernel-computable.
* JS `string.length`, `substring` count UTF-16 units; for the
  basic-multilingual-plane text handled here this coincides with counting
  `Char`s, which is what the embedding does.
-/

set_option maxRecDepth 40000

namespace MVP

/-! ## JS string primitives -/

/-- Whitespace class of JS (`\s` in regexes, `String.prototype.trim`). -/
def isJsWs (c : Char) : Bool :=
  c = ' ' || c = '\t' || c = '\n' || c = '\r' || c.val = 0x0B || c.val = 0x0C ||
  c.val = 0xA0 || c.val = 0x1680 || (0x2000 ≤ c.val && c.val ≤ 0x200A) ||
  c.val = 0x2028 || c.val = 0x2029 || c.val = 0x202F || c.val = 0x205F ||
  c.val = 0x3000 || c.val = 0xFEFF

/-- Line terminators excluded by `.` in a JS regex without the `s` flag. -/
def isJsLineTerm (c : Char) : Bool :=
  c = '\n' || c = '\r' || c.val = 0x2028 || c.val = 0x2029

def trimLeftChars (l : List Char) : List Char := l.dropWhile isJsWs

def trimRightChars (l : List Char) : List Char := (l.reverse.dropWhile isJsWs).reverse

/-- Embedding of `String.prototype.trim`. -/
def jsTrim (s : String) : String := ⟨trimRightChars (trimLeftChars s.data)⟩

/-- Embedding of `String.prototype.trimEnd` (used for regex `\s*$` analyses). -/
def jsTrimEnd (s : String) : String := ⟨trimRightChars s.data⟩

/-- Embedding of `String.prototype.toLowerCase` (ASCII-complete; the header
keywords compared against are ASCII). -/
def jsToLower (s : String) : String := ⟨s.data.map Char.toLower⟩

def strTake (n : Nat) (s : String) : String := ⟨s.data.take n⟩

def strDrop (n : Nat) (s : String) : String := ⟨s.data.drop n⟩

def startsWithChars : List Char → List Char → Bool
  | _, [] => true
  | [], _ :: _ => false
  | c :: cs, p :: ps => c = p && startsWithChars cs ps

/-- Embedding of `String.prototype.startsWith`. -/
def strStartsWith (s pat : String) : Bool := startsWithChars s.data pat.data

def endsWithChars (l pat : List Char) : Bool := startsWithChars l.reverse pat.reverse

/-- Embedding of `String.prototype.endsWith`. -/
def strEndsWith (s pat : String) : Bool := endsWithChars s.data pat.data

def hasSubChars : List Char → List Char → Bool
  | [], pat => pat.isEmpty
  | hay@(_ :: t), pat => startsWithChars hay pat || hasSubChars t pat

/-- Embedding of `String.prototype.includes`. -/
def hasSub (s pat : String) : Bool := hasSubChars s.data pat.data

/-- Embedding of `String.prototype.includes` for a single character. -/
def chContains (s : String) (c : Char) : Bool := s.data.contains c

def findSubIdxChars : List Char → List Char → Option Nat
  | [], pat => if pat.isEmpty then some 0 else none
  | hay@(_ :: t), pat =>
    if startsWithChars hay pat then some 0 else (findSubIdxChars t pat).map (· + 1)

/-- Index of the first occurrence of `pat` in `s` (JS `String.prototype.indexOf`
for a substring; `none` for JS `-1`). -/
def findSubIdx (s pat : String) : Option Nat := findSubIdxChars s.data pat.data

def countSubCharsAux (pat : List Char) : Nat → List Char → Nat
  | 0, _ => 0
  | _ + 1, [] => 0
  | fuel + 1, hay@(_ :: t) =>
    if startsWithChars hay pat then 1 + countSubCharsAux pat fuel (hay.drop pat.length)
    else countSubCharsAux pat fuel t

/-- Number of non-overlapping occurrences of `pat` (JS `str.match(/pat/g).length`). -/
def countSub (s pat : String) : Nat := countSubCharsAux pat.data s.data.length s.data

/-- Number of occurrences of a character (JS `str.match(/c/g).length`). -/
def countChar (c : Char) (s : String) : Nat := (s.data.filter (fun x => x = c)).length

/-- Splitting a character list at every `'\n'`; `charLines [] = [[]]`, matching
JS `"".split('\n') = [""]`. -/
def charLines : List Char → List (List Char)
  | [] => [[]]
  | c :: r =>
    if c = '\n' then [] :: charLines r
    else match charLines r with
      | [] => [[c]]
      | h :: t => (c :: h) :: t

/-- Embedding of `String.prototype.split('\n')`. -/
def stringLines (s : String) : List String := (charLines s.data).map (fun l => ⟨l⟩)

def splitCharAux (c : Char) : List Char → List Char → List String
  | cur, [] => [⟨cur.reverse⟩]
  | cur, x :: xs =>
    if x = c then ⟨cur.reverse⟩ :: splitCharAux c [] xs else splitCharAux c (x :: cur) xs

/-- Embedding of `String.prototype.split(c)` for a single-character separator. -/
def splitChar (c : Char) (s : String) : List String := splitCharAux c [] s.data

def splitAnyCharAux (sep : List Char) : List Char → List Char → List String
  | cur, [] => [⟨cur.reverse⟩]
  | cur, x :: xs =>
    if sep.contains x then ⟨cur.reverse⟩ :: splitAnyCharAux sep [] xs
    else splitAnyCharAux sep (x :: cur) xs

/-- Embedding of `String.prototype.split(/[c₁c₂…]/)` (single-character class). -/
def splitAnyChar (sep : List Char) (s : String) : List String := splitAnyCharAux sep [] s.data

def splitWsRunsAux : Nat → List Char → List Char → List String
  | 0, cur, _ => [⟨cur.reverse⟩]
  | _ + 1, cur, [] => [⟨cur.reverse⟩]
  | fuel + 1, cur, [x] => splitWsRunsAux fuel (x :: cur) []
  | fuel + 1, cur, x :: y :: xs =>
    if isJsWs x && isJsWs y then
      ⟨cur.reverse⟩ :: splitWsRunsAux fuel [] ((y :: xs).dropWhile isJsWs)
    else splitWsRunsAux fuel (x :: cur) (y :: xs)

/-- Embedding of `String.prototype.split(/\s{2,}/)`: fields are separated by
maximal runs of two or more whitespace characters. -/
def splitWsRuns (s : String) : List String := splitWsRunsAux s.data.length [] s.data

/-- Test of the regex `/\s{2,}/`. -/
def hasWsRun2 : List Char → Bool
  | [] => false
  | [_] => false
  | x :: y :: rest => (isJsWs x && isJsWs y) || hasWsRun2 (y :: rest)

/-- Embedding of `Array.prototype.join('\n')`. -/
def joinNL : List String → String
  | [] => ""
  | l :: rest => rest.foldl (fun acc x => acc ++ "\n" ++ x) l

/-- Embedding of `Array.prototype.join(sep)`. -/
def joinSep (sep : String) : List String → String
  | [] => ""
  | l :: rest => rest.foldl (fun acc x => acc ++ sep ++ x) l

/-! ## Data model: `ParsedSections` (route.ts, strict version) -/

/-- Closed set of section keys (`interface ParsedSections` field names). -/
inductive SectionKey
  | issue | impact | rootCause | fix | validation | lessonsLearned | prevention | finalNote
deriving DecidableEq, Repr

structure ParsedSections where
  issue : List String
  impact : List String
  rootCause : List String
  fix : List String
  validation : List String
  lessonsLearned : List String
  prevention : List String
  finalNote : List String
deriving DecidableEq, Repr

def emptySections : ParsedSections := ⟨[], [], [], [], [], [], [], []⟩

def ParsedSections.get (p : ParsedSections) : SectionKey → List String
  | .issue => p.issue
  | .impact => p.impact
  | .rootCause => p.rootCause
  | .fix => p.fix
  | .validation => p.validation
  | .lessonsLearned => p.lessonsLearned
  | .prevention => p.prevention
  | .finalNote => p.finalNote

/-- Appending one item to a named section (`sections[currentSection].push(x)`). -/
def ParsedSections.push (p : ParsedSections) (k : SectionKey) (item : String) : ParsedSections :=
  match k with
  | .issue => { p with issue := p.issue ++ [item] }
  | .impact => { p with impact := p.impact ++ [item] }
  | .rootCause => { p with rootCause := p.rootCause ++ [item] }
  | .fix => { p with fix := p.fix ++ [item] }
  | .validation => { p with validation := p.validation ++ [item] }
  | .lessonsLearned => { p with lessonsLearned := p.lessonsLearned ++ [item] }
  | .prevention => { p with prevention := p.prevention ++ [item] }
  | .finalNote => { p with finalNote := p.finalNote ++ [item] }

/-! ## `detectSectionHeader` -/

/-- Embedding of `detectSectionHeader`: trim, lower-case, strip a leading run
of `#` marks (regex `^#+\s*`) and one trailing colon (regex `[:：]\s*$`; after
trimming there is no trailing whitespace, so only the final character can be
the colon), then compare with the closed keyword set. -/
def detectSectionHeader (line : String) : Option SectionKey :=
  let t := (jsToLower (jsTrim line)).data
  let t1 := if t.head? = some '#' then (t.dropWhile (fun c => c = '#')).dropWhile isJsWs else t
  let cleaned := if t1.getLast? = some ':' || t1.getLast? = some '：' then t1.dropLast else t1
  if cleaned = "issue".data then some .issue
  else if cleaned = "impact".data then some .impact
  else if cleaned = "root cause".data then some .rootCause
  else if cleaned = "resolution".data || cleaned = "fix".data then some .fix
  else if cleaned = "validation".data then some .validation
  else if cleaned = "lesson learned".data || cleaned = "lessons learned".data then
    some .lessonsLearned
  else if cleaned = "prevention".data then some .prevention
  else if cleaned = "final note".data || cleaned = "final notes".data then some .finalNote
  else none

/-! ## `isTableLike` and `linesToMarkdownTable` -/

/-- Per-line column count used by `isTableLike`: split on tabs when the line
contains one (else on 2+-whitespace runs), keep cells with non-blank trim. -/
def colCount (l : String) : Nat :=
  if chContains l '\t' then
    ((splitChar '\t' l).filter (fun cell => jsTrim cell ≠ "")).length
  else
    ((splitWsRuns l).filter (fun cell => jsTrim cell ≠ "")).length

/-- Embedding of `isTableLike`. -/
def isTableLike (lines : List String) : Bool :=
  if lines.length < 2 then false
  else
    let hasTabSeparators := lines.all (fun l => chContains l '\t')
    let hasMultiSpaceSeparators := lines.all (fun l => hasWsRun2 l.data)
    if !hasTabSeparators && !hasMultiSpaceSeparators then false
    else
      match lines.map colCount with
      | [] => false
      | c :: cs =>
        let minCols := cs.foldl Nat.min c
        let maxCols := cs.foldl Nat.max c
        decide (2 ≤ minCols) && decide (maxCols - minCols ≤ 1)

/-- Cell split used by `linesToMarkdownTable` (keeps empty cells, trims each). -/
def rowCells (l : String) : List String :=
  if chContains l '\t' then (splitChar '\t' l).map jsTrim
  else (splitWsRuns l).map jsTrim

/-- Right-pad a row to `m` cells with empty strings, then `slice(0, m)`. -/
def padRow (m : Nat) (r : List String) : List String :=
  (r ++ List.replicate (m - r.length) "").take m

def mkPipeRow (cells : List String) : String := "| " ++ joinSep " | " cells ++ " |"

/-- Embedding of `linesToMarkdownTable`. -/
def linesToMarkdownTable (lines : List String) : String :=
  let rows := lines.map rowCells
  match rows with
  | [] => ""
  | header0 :: dataRows0 =>
    let maxCols := ((header0 :: dataRows0).map List.length).foldl Nat.max 0
    let header := padRow maxCols header0
    let dataRows := dataRows0.map (padRow maxCols)
    let headerLine := mkPipeRow header
    let separatorLine := mkPipeRow (header.map (fun _ => "---"))
    let dataLines := dataRows.map mkPipeRow
    joinNL (headerLine :: separatorLine :: dataLines)

/-! ## `preprocessRawText` -/

/-- Marker text for a section key (the `markerMap` object). -/
def markerName : SectionKey → String
  | .issue => "ISSUE"
  | .impact => "IMPACT"
  | .rootCause => "ROOT_CAUSE"
  | .fix => "RESOLUTION"
  | .validation => "VALIDATION"
  | .lessonsLearned => "LESSONS_LEARNED"
  | .prevention => "PREVENTION"
  | .finalNote => "FINAL_NOTE"

def mkSectionMarker (k : SectionKey) : String := "[[SECTION:" ++ markerName k ++ "]]"

/-- Look-ahead predicate of the preprocessing loop: collect following lines
while they are non-blank and not recognized section headers. -/
def lookAheadPred (x : String) : Bool := jsTrim x ≠ "" && (detectSectionHeader x).isNone

def preprocessLinesAux : Nat → List String → List String
  | 0, rest => rest
  | _ + 1, [] => []
  | fuel + 1, l :: rest =>
    let trimmed := jsTrim l
    if trimmed = "" then l :: preprocessLinesAux fuel rest
    else
      match detectSectionHeader l with
      | some k => mkSectionMarker k :: preprocessLinesAux fuel rest
      | none =>
        let lookAheadLines := trimmed :: (rest.takeWhile lookAheadPred).map jsTrim
        if isTableLike lookAheadLines then
          "[[TABLE]]" :: lookAheadLines ++ "[[/TABLE]]" ::
            preprocessLinesAux fuel (rest.drop (rest.takeWhile lookAheadPred).length)
        else l :: preprocessLinesAux fuel rest

/-- Embedding of `preprocessRawText` at the line level: the source pushes the
trimmed lines `lines[i..j)` of a recognized table block, which coincide with
the collected look-ahead block. -/
def preprocessLines (lines : List String) : List String :=
  preprocessLinesAux lines.length lines

/-! ## `parseMarkedText` -/

/-- Marker word → section key (`markerToSection`; unknown words give `none`,
matching `markerToSection[…] || null`). -/
def markerToSection : String → Option SectionKey
  | "ISSUE" => some .issue
  | "IMPACT" => some .impact
  | "ROOT_CAUSE" => some .rootCause
  | "RESOLUTION" => some .fix
  | "VALIDATION" => some .validation
  | "LESSONS_LEARNED" => some .lessonsLearned
  | "PREVENTION" => some .prevention
  | "FINAL_NOTE" => some .finalNote
  | _ => none

def isWordChar (c : Char) : Bool := c.isAlphanum || c = '_'

/-- Match of the regex `^\[\[SECTION:(\w+)\]\]$` against a (trimmed) line,
returning the captured word. -/
def sectionMarkerWord (t : String) : Option String :=
  let d := t.data
  if startsWithChars d "[[SECTION:".data && endsWithChars d "]]".data then
    let mid := (d.drop 10).take (d.length - 12)
    if mid ≠ [] && mid.all isWordChar then some ⟨mid⟩ else none
  else none

/-- Loop state of `parseMarkedText`. -/
structure PState where
  currentSection : Option SectionKey
  inTable : Bool
  tableLines : List String
  sections : ParsedSections
deriving DecidableEq, Repr

def initPState : PState := ⟨none, false, [], emptySections⟩

/-- One iteration of the `parseMarkedText` loop. -/
def parseStep (s : PState) (line : String) : PState :=
  let trimmed := jsTrim line
  match sectionMarkerWord trimmed with
  | some w => { s with currentSection := markerToSection w }
  | none =>
    if trimmed = "[[TABLE]]" then { s with inTable := true, tableLines := [] }
    else if trimmed = "[[/TABLE]]" then
      match s.currentSection with
      | some k =>
        if s.tableLines.length > 0 then
          { s with inTable := false,
                   sections := s.sections.push k (linesToMarkdownTable s.tableLines) }
        else { s with inTable := false }
      | none => { s with inTable := false }
    else if s.inTable then
      if trimmed ≠ "" then { s with tableLines := s.tableLines ++ [trimmed] } else s
    else if trimmed ≠ "" then
      match s.currentSection with
      | some k => { s with sections := s.sections.push k trimmed }
      | none => s
    else s

/-- Embedding of `parseMarkedText` at the line level. -/
def parseMarkedLines (lines : List String) : ParsedSections :=
  (lines.foldl parseStep initPState).sections

/-- Embedding of `parseIncidentText` at the line level (preprocess, then parse;
the join/split round trip between the two source functions is the identity on
newline-free lines). -/
def parseIncidentLines (lines : List String) : ParsedSections :=
  parseMarkedLines (preprocessLines lines)

/-- Embedding of `parseIncidentText`. -/
def parseIncidentText (rawText : String) : ParsedSections :=
  parseIncidentLines (stringLines rawText)

/-! ## `buildFixSection` -/

/-- Maximal-munch parse of the prefix regex `STEP\s*\d+:\s*` (case-insensitive),
returning the remainder. -/
def stepMarkerRest (l : String) : Option String :=
  match l.data with
  | a :: b :: c :: d :: rest =>
    if a.toLower = 's' && b.toLower = 't' && c.toLower = 'e' && d.toLower = 'p' then
      if (rest.dropWhile isJsWs).takeWhile Char.isDigit ≠ [] then
        match (rest.dropWhile isJsWs).dropWhile Char.isDigit with
        | ':' :: restChars => some ⟨restChars.dropWhile isJsWs⟩
        | _ => none
      else none
    else none
  | _ => none

/-- The no-prefix attempt of the step regex: `(.+?)$` captures the whole line
when it is non-empty and free of line terminators. -/
def wholeLineCapture (l : String) : Option String :=
  if l.data ≠ [] && l.data.all (fun c => ¬ isJsLineTerm c) then some l else none

/-- Match of `line.match(/^(?:STEP\s*\d+:\s*)?(.+?)$/i)`, returning the capture
group.  The greedy optional prefix is tried first; `(.+?)$` then needs a
non-empty remainder free of line terminators.  If the remainder after the
prefix is empty, the engine backtracks into the prefix's trailing `\s*` (one
whitespace character suffices when it is not a line terminator) and finally
retries without the prefix, capturing the whole line. -/
def jsStepMatch (l : String) : Option String :=
  match stepMarkerRest l with
  | some rest =>
    if rest.data ≠ [] then
      if rest.data.all (fun c => ¬ isJsLineTerm c) then some rest else wholeLineCapture l
    else
      match l.data.getLast? with
      | some c => if isJsWs c && ¬ isJsLineTerm c then some ⟨[c]⟩ else wholeLineCapture l
      | none => wholeLineCapture l
  | none => wholeLineCapture l

/-- Test of `/^[A-Z][A-Za-z\s]+$/`. -/
def isUpperStepTitle (content : String) : Bool :=
  match content.data with
  | c0 :: c1 :: cs =>
    ('A' ≤ c0 && c0 ≤ 'Z') &&
      (c1 :: cs).all (fun c => ('A' ≤ c && c ≤ 'Z') || ('a' ≤ c && c ≤ 'z') || isJsWs c)
  | _ => false

/-- Strip of `line.replace(/^[-*•]\s*/, '')`. -/
def stripBulletMark (l : String) : String :=
  match l.data with
  | c :: rest => if c = '-' || c = '*' || c = '•' then ⟨rest.dropWhile isJsWs⟩ else l
  | [] => l

/-- Strip of `line.replace(/^\d+\.\s*/, '')`. -/
def stripNumberMark (l : String) : String :=
  if l.data.takeWhile Char.isDigit ≠ [] then
    match l.data.dropWhile Char.isDigit with
    | '.' :: rest => ⟨rest.dropWhile isJsWs⟩
    | _ => l
  else l

def buildFixAux : Nat → List String → List String
  | 0, _ => []
  | _ + 1, [] => []
  | fuel + 1, line :: rest =>
    match jsStepMatch line with
    | none => buildFixAux fuel rest
    | some capture =>
      let content := jsTrim capture
      let isFollowedByTable :=
        match rest.head? with
        | some nxt => strStartsWith nxt "|"
        | none => false
      if isFollowedByTable || isUpperStepTitle content then
        let tbls := rest.takeWhile (fun n => strStartsWith n "|")
        ("### " ++ content) :: "" :: tbls ++ [""] ++
          buildFixAux fuel (rest.drop tbls.length)
      else
        ("- " ++ stripNumberMark (stripBulletMark line)) :: buildFixAux fuel rest

/-- Embedding of `buildFixSection`. -/
def buildFixSection (fixLines : List String) : String :=
  if fixLines.length = 0 then "(No fix steps captured in incident notes.)"
  else jsTrim (joinNL (buildFixAux fixLines.length fixLines))

/-! ## `buildSection` -/

/-- Match of `line.match(/^(.*?:)\s*$/)`: the lazy group forces the earliest
colon whose suffix is all whitespace, which is necessarily the last colon; the
matched group is the line without its trailing whitespace, and `.` requires it
to be newline-free. -/
def jsHierMatch (l : String) : Option String :=
  let t := jsTrimEnd l
  if strEndsWith t ":" && ¬ chContains t '\n' then some t else none

/-- Test of `/^[-*•]\s/`. -/
def isBulletLine (l : String) : Bool :=
  match l.data with
  | c :: d :: _ => (c = '-' || c = '*' || c = '•') && isJsWs d
  | _ => false

/-- Test of `/^\d+\.\s/`. -/
def isNumberedLine (l : String) : Bool :=
  let digits := l.data.takeWhile Char.isDigit
  digits ≠ [] &&
    match l.data.dropWhile Char.isDigit with
    | '.' :: d :: _ => isJsWs d
    | _ => false

/-- Loop condition of the nested-item `while` in `buildSection`. -/
def nestedPred (x : String) : Bool := ¬ strStartsWith x "|" && (jsHierMatch x).isNone

def lastStartsDash (acc : List String) : Bool :=
  match acc.getLast? with
  | some x => strStartsWith x "-"
  | none => false

/-- The two final branches of the `buildSection` loop: preserve an existing
bullet or numbered line, else emit a plain bullet. -/
def buildSectionFallback (acc : List String) (line : String) : List String :=
  if isBulletLine line || isNumberedLine line then acc ++ [line] else acc ++ ["- " ++ line]

def buildSectionAux : Nat → List String → List String → List String
  | 0, acc, _ => acc
  | _ + 1, acc, [] => acc
  | fuel + 1, acc, line :: rest =>
    if strStartsWith line "|" then
      let acc' := if lastStartsDash acc then acc ++ [""] else acc
      buildSectionAux fuel (acc' ++ [line]) rest
    else
      match jsHierMatch line with
      | some grp =>
        match rest with
        | nxt :: _ =>
          if strStartsWith nxt "|" then
            buildSectionAux fuel (buildSectionFallback acc line) rest
          else
            let nested := rest.takeWhile nestedPred
            let nestedOut := nested.map (fun n =>
              if strStartsWith n "-" then "  " ++ n else "  - " ++ n)
            buildSectionAux fuel (acc ++ ["- " ++ grp] ++ nestedOut) (rest.drop nested.length)
        | [] => buildSectionAux fuel (buildSectionFallback acc line) rest
      | none => buildSectionAux fuel (buildSectionFallback acc line) rest

/-- Embedding of `buildSection`. -/
def buildSection (lines : List String) : String :=
  if lines.length = 0 then "(No data captured in incident notes.)"
  else joinNL (buildSectionAux lines.length [] lines)

/-! ## `buildBody` -/

/-- Embedding of `buildBody` (template literal written as explicit
concatenation). -/
def buildBody (parsed : ParsedSections) : String :=
  "\n## Issue\n\n" ++ buildSection parsed.issue ++
  "\n\n## Impact\n\n" ++ buildSection parsed.impact ++
  "\n\n## Root Cause\n\n" ++ buildSection parsed.rootCause ++
  "\n\n## Fix\n\n" ++ buildFixSection parsed.fix ++
  "\n\n## Validation\n\n" ++ buildSection parsed.validation ++
  "\n\n## Lessons Learned\n\n" ++ buildSection parsed.lessonsLearned ++
  "\n\n## Prevention\n\n" ++
  (if parsed.prevention.length > 0 then buildSection parsed.prevention
   else "(No prevention steps captured.)") ++
  "\n\n" ++
  (if parsed.finalNote.length > 0 then "## Final Note\n\n" ++ buildSection parsed.finalNote
   else "") ++
  "\n"

/-! ## `extractFrontmatter` -/

/-- Frontmatter values.  Extraction only produces strings or string lists;
caller-supplied maps are modelled with the same two shapes (the `else`
branch of the serializer for other JS scalars is unreachable under them). -/
inductive FMValue
  | str (s : String)
  | list (vs : List String)
deriving DecidableEq, Repr

/-- Ordered key/value record (`Record<string, any>` keeps insertion order and
overwrite-in-place semantics for string keys). -/
abbrev Frontmatter := List (String × FMValue)

/-- Embedding of `value.replace(/^["']|["']$/g, '')`: at most one quote is
removed from each end (the same character is never removed twice). -/
def stripQuotes (v : String) : String :=
  let d := v.data
  let d1 := match d with
    | c :: rest => if c = '"' || c = '\'' then rest else d
    | [] => d
  let d2 := match d1.getLast? with
    | some c => if c = '"' || c = '\'' then d1.dropLast else d1
    | none => d1
  ⟨d2⟩

/-- JS object assignment `frontmatter[key] = value`: an existing key keeps its
insertion position and gets the new value; a new key is appended. -/
def fmUpsert (fm : Frontmatter) (key : String) (v : FMValue) : Frontmatter :=
  if fm.any (fun kv => kv.1 = key) then
    fm.map (fun kv => if kv.1 = key then (key, v) else kv)
  else fm ++ [(key, v)]

/-- One iteration of the frontmatter-line loop of `extractFrontmatter`. -/
def parseFrontmatterLine (fm : Frontmatter) (line : String) : Frontmatter :=
  match line.data.findIdx? (fun c => c = ':') with
  | some colonIndex =>
    if colonIndex > 0 then
      let key := jsTrim ⟨line.data.take colonIndex⟩
      let value := stripQuotes (jsTrim ⟨line.data.drop (colonIndex + 1)⟩)
      if strStartsWith value "[" && strEndsWith value "]" then
        let arrayContent : String := ⟨(value.data.drop 1).take (value.data.length - 2)⟩
        fmUpsert fm key
          (.list ((splitChar ',' arrayContent).map (fun v => stripQuotes (jsTrim v))))
      else fmUpsert fm key (.str value)
    else fm
  | none => fm

/-- Embedding of `extractFrontmatter` at the line level; the second component
is the content without the frontmatter block. -/
def extractFrontmatterLines (lines : List String) : Option Frontmatter × List String :=
  match lines with
  | l0 :: rest =>
    if lines.length > 2 && jsTrim l0 = "---" then
      match rest.findIdx? (fun l => jsTrim l = "---") with
      | some i =>
        (some ((rest.take i).foldl parseFrontmatterLine []), rest.drop (i + 1))
      | none => (none, lines)
    else (none, lines)
  | [] => (none, lines)

/-! ## `extractTags` (lib/mdx/tagger.ts) -/

/-- The `TAG_RULES` table. -/
def tagRules : List (List String × List String) :=
  [ (["front door", "afd"], ["Azure", "Front Door", "WAF"]),
    (["waf", "owasp", "web application firewall"], ["Azure", "WAF", "Security"]),
    (["storage account", "blob", "sas", "azure storage"], ["Azure", "Storage"]),
    (["private endpoint", "private link"], ["Azure", "Networking", "Private Link"]),
    (["nsg", "network security group", "udr", "route table", "user-defined route"],
      ["Azure", "Networking"]),
    (["expressroute", "express route", "bgp"], ["Azure", "Networking", "ExpressRoute"]),
    (["application gateway", "app gateway", "appgw"], ["Azure", "Application Gateway"]),
    (["key vault", "akv"], ["Azure", "Key Vault", "Security"]),
    (["app service", "web app"], ["Azure", "App Service"]),
    (["virtual machine", "vm"], ["Azure", "Virtual Machines"]),
    (["kubernetes", "aks", "k8s"], ["Azure", "AKS", "Kubernetes"]),
    (["function", "functions app", "azure functions"], ["Azure", "Functions"]),
    (["cosmos", "cosmosdb"], ["Azure", "Cosmos DB", "Database"]),
    (["sql database", "azure sql"], ["Azure", "SQL Database"]),
    (["vnet", "virtual network", "subnet"], ["Azure", "Networking", "VNet"]),
    (["load balancer", "lb"], ["Azure", "Load Balancer", "Networking"]),
    (["vpn", "vpn gateway"], ["Azure", "VPN Gateway", "Networking"]),
    (["dns", "azure dns"], ["Azure", "DNS", "Networking"]),
    (["monitor", "application insights", "log analytics"], ["Azure", "Monitoring"]),
    (["rbac", "role-based access", "iam"], ["Azure", "Security", "RBAC"]) ]

/-- `Set<string>` insertion: deduplicate, keep first-insertion order. -/
def addTag (acc : List String) (t : String) : List String :=
  if acc.contains t then acc else acc ++ [t]

/-- Modelled comparison for `String.prototype.localeCompare` restricted to the
ASCII tag vocabulary: case-insensitive lexicographic order, lower case first
between case-equal strings. -/
def localeCmpModel (a b : String) : Int :=
  let la := (jsToLower a).data
  let lb := (jsToLower b).data
  if la < lb then -1
  else if lb < la then 1
  else if a = b then 0
  else if a.data < b.data then 1 else -1

/-- The sort comparator of `extractTags` ("Azure" first). -/
def jsTagCmp (a b : String) : Int :=
  if a = "Azure" then -1 else if b = "Azure" then 1 else localeCmpModel a b

def insertSortedTag (x : String) : List String → List String
  | [] => [x]
  | y :: ys => if jsTagCmp y x ≤ 0 then y :: insertSortedTag x ys else x :: y :: ys

/-- Stable sort with the tag comparator (JS `Array.prototype.sort` is stable). -/
def sortTags (l : List String) : List String := l.foldl (fun acc x => insertSortedTag x acc) []

/-- Embedding of `extractTags`. -/
def extractTags (text : String) : List String :=
  let lowerText := jsToLower text
  let hasAzureContext :=
    ["azure", "microsoft", "subscription", "resource group"].any (fun kw => hasSub lowerText kw)
  let afterRules := tagRules.foldl
    (fun acc rule =>
      match rule.1.find? (fun kw => hasSub lowerText (jsToLower kw)) with
      | some _ => rule.2.foldl addTag acc
      | none => acc) []
  let withAzure := if hasAzureContext then addTag afterRules "Azure" else afterRules
  let tags := sortTags withAzure
  if tags.length > 0 then tags else ["Azure", "General"]

/-! ## `validateMDX` (lib/mdx/validator.ts) -/

structure ValidationResult where
  isValid : Bool
  errors : List String
  warnings : List String
deriving DecidableEq, Repr

/-- Capture group of `mdxContent.match` with pattern `^---\n([\s\S]*?)\n---`. -/
def frontmatterCapture (mdx : String) : Option String :=
  if strStartsWith mdx "---\n" then
    match findSubIdxChars (mdx.data.drop 4) "\n---".data with
    | some i => some ⟨(mdx.data.drop 4).take i⟩
    | none => none
  else none

def isAsciiDigit (c : Char) : Bool := '0' ≤ c && c ≤ '9'

/-- Attempted match of `date:\s*["']?(\d{4}-\d{2}-\d{2})["']?` anchored at the
head of the list, returning the capture. -/
def dateCaptureAt (l : List Char) : Option String :=
  if startsWithChars l "date:".data then
    let r0 := (l.drop 5).dropWhile isJsWs
    let r := match r0 with
      | c :: rest => if c = '"' || c = '\'' then rest else r0
      | [] => r0
    match r with
    | y1 :: y2 :: y3 :: y4 :: '-' :: m1 :: m2 :: '-' :: d1 :: d2 :: _ =>
      if [y1, y2, y3, y4, m1, m2, d1, d2].all isAsciiDigit then
        some ⟨[y1, y2, y3, y4, '-', m1, m2, '-', d1, d2]⟩
      else none
    | _ => none
  else none

/-- First match of the date pattern anywhere in the string. -/
def findDateCapture : List Char → Option String
  | [] => none
  | l@(_ :: t) =>
    match dateCaptureAt l with
    | some d => some d
    | none => findDateCapture t

def digitVal (c : Char) : Nat := c.toNat - '0'.toNat

/-- Validity of `new Date("YYYY-MM-DD")` for a string already matching the
captured digit pattern (ISO date parsing: month 1–12, day within the month). -/
def jsDateValid (d : String) : Bool :=
  match d.data with
  | [y1, y2, y3, y4, _, m1, m2, _, d1, d2] =>
    let y := ((digitVal y1 * 10 + digitVal y2) * 10 + digitVal y3) * 10 + digitVal y4
    let m := digitVal m1 * 10 + digitVal m2
    let day := digitVal d1 * 10 + digitVal d2
    let leap := (y % 4 = 0 && y % 100 ≠ 0) || y % 400 = 0
    let dim := if m = 2 then (if leap then 29 else 28)
               else if m = 4 || m = 6 || m = 9 || m = 11 then 30 else 31
    decide (1 ≤ m) && decide (m ≤ 12) && decide (1 ≤ day) && decide (day ≤ dim)
  | _ => false

/-- Attempted match of `tags:\s*\[.*\]` anchored at the head of the list. -/
def tagsArrayAt (l : List Char) : Bool :=
  if startsWithChars l "tags:".data then
    match (l.drop 5).dropWhile isJsWs with
    | '[' :: r => (r.takeWhile (fun c => ¬ isJsLineTerm c)).contains ']'
    | _ => false
  else false

def hasTagsArray : List Char → Bool
  | [] => false
  | l@(_ :: t) => tagsArrayAt l || hasTagsArray t

/-- The per-line warning loop of `validateMDX` (code-fence state machine). -/
def lineWarningsAux : Nat → Bool → List String → List String
  | _, _, [] => []
  | i, inCodeBlock, line :: rest =>
    let inCB := if strStartsWith (jsTrim line) "```" then !inCodeBlock else inCodeBlock
    (if !inCB && countChar '`' line % 2 ≠ 0 && !hasSub line "```" then
      ["Line " ++ toString (i + 1) ++ ": Possible unclosed inline code backtick"]
     else []) ++ lineWarningsAux (i + 1) inCB rest

/-- Embedding of `mdxContent.replace(/^---\n[\s\S]*?\n---\n/, '')`. -/
def stripFrontmatterBlock (mdx : String) : String :=
  if strStartsWith mdx "---\n" then
    match findSubIdxChars (mdx.data.drop 4) "\n---\n".data with
    | some i => ⟨mdx.data.drop (4 + i + 5)⟩
    | none => mdx
  else mdx

/-- Embedding of `validateMDX`. -/
def validateMDX (mdxContent : String) : ValidationResult :=
  if jsTrim mdxContent = "" then
    { isValid := false, errors := ["MDX content is empty"], warnings := [] }
  else
    let e1 := if ¬ strStartsWith (jsTrim mdxContent) "---" then
        ["Front matter is missing (should start with ---)"] else []
    let fmErrsWarns : List String × List String :=
      match frontmatterCapture mdxContent with
      | some frontMatter =>
        let missing := (["title:", "description:", "date:", "tags:", "category:"].filter
          (fun f => ¬ hasSub frontMatter f)).map
          (fun f => "Front matter missing required field: " ++ (⟨f.data.dropLast⟩ : String))
        let dateErr := match findDateCapture frontMatter.data with
          | some dstr =>
            if ¬ jsDateValid dstr then ["Invalid date format (should be YYYY-MM-DD)"] else []
          | none => []
        let tagsWarn := if hasSub frontMatter "tags:" && ¬ hasTagsArray frontMatter.data then
            ["Tags should be formatted as an array [tag1, tag2]"] else []
        (missing ++ dateErr, tagsWarn)
      | none =>
        (if strStartsWith (jsTrim mdxContent) "---" then
          ["Front matter is not properly closed (missing closing ---)"] else [], [])
    let fenceCount := countSub mdxContent "```"
    let e3 := if fenceCount % 2 ≠ 0 then
        ["Unbalanced code fences (found " ++ toString fenceCount ++ ", should be even)"] else []
    let lineWarns := lineWarningsAux 0 false (stringLines mdxContent)
    let shortWarn := if (jsTrim (stripFrontmatterBlock mdxContent)).data.length < 50 then
        ["Content seems too short (less than 50 characters)"] else []
    let errors := e1 ++ fmErrsWarns.1 ++ e3
    { isValid := errors.isEmpty, errors, warnings := fmErrsWarns.2 ++ lineWarns ++ shortWarn }

/-! ## `generateMDX` -/

structure GenResult where
  mdx : String
  tags : List String
  warnings : List String
deriving DecidableEq, Repr

/-- Embedding of `actualFrontmatter.tags || []`.  A string-typed `tags` value
flows through untyped in JS; it is wrapped as a singleton here (no behaviour
proved below depends on that shape), and `""` is falsy, giving `[]`. -/
def fmTags : Option FMValue → List String
  | some (.list vs) => vs
  | some (.str s) => if s = "" then [] else [s]
  | none => []

/-- One line of the frontmatter serialization in `generateMDX`'s
existing-frontmatter branch. -/
def serializeFMLine (kv : String × FMValue) : String :=
  match kv.2 with
  | .list vs => kv.1 ++ ": [" ++ joinSep ", " (vs.map (fun v => "\"" ++ v ++ "\"")) ++ "]"
  | .str s => kv.1 ++ ": \"" ++ s ++ "\""

/-- The `frontMatterLines` array built by `generateMDX` from an existing
frontmatter record. -/
def serializeFMBlockLines (fm : Frontmatter) : List String :=
  "---" :: fm.map serializeFMLine ++ ["---"]

/-- Embedding of `issueText.split(/[.!?]/)`. -/
def splitSentences (s : String) : List String := splitAnyChar ['.', '!', '?'] s

/-- Title derivation when the caller supplies none. -/
def autoTitle (issueText : String) : String :=
  let firstSentence := jsTrim ((splitSentences issueText).headD "")
  let t := strTake 80 firstSentence
  if t ≠ "" then t else "Azure Troubleshooting Guide"

/-- The front-matter template of `generateMDX`'s inference branch; `severity`
is appended only when supplied and truthy. -/
def mkAutoFrontmatter (today finalTitle description finalCategory : String)
    (tags : List String) (severity : Option String) : String :=
  "---" ++
  "\ntitle: \"" ++ finalTitle ++ "\"" ++
  "\ndescription: \"" ++ description ++ "\"" ++
  "\ndate: \"" ++ today ++ "\"" ++
  "\ntags: [" ++ joinSep ", " (tags.map (fun tag => "\"" ++ tag ++ "\"")) ++ "]" ++
  "\ncategory: \"" ++ finalCategory ++ "\"" ++
  (match severity with
   | some s => if s ≠ "" then "\nseverity: \"" ++ s ++ "\"" else ""
   | none => "") ++
  "\n---"

/-- Embedding of `generateMDX` at the line level.  `today` is the value of
`new Date().toISOString().split('T')[0]` (the only impure read), passed as a
parameter.  Optional JS string arguments are `Option String`; `some ""` is
falsy, like an absent argument. -/
def generateMDXFromLines (today : String) (rawLines : List String)
    (title category severity : Option String) (existingFrontmatter : Option Frontmatter) :
    GenResult :=
  let ex := extractFrontmatterLines rawLines
  let actualFrontmatter := match existingFrontmatter with
    | some f => some f
    | none => ex.1
  let contentToParse := if ex.1.isSome then ex.2 else rawLines
  match actualFrontmatter with
  | some fm =>
    let parsed := parseIncidentLines contentToParse
    let frontMatter := joinNL (serializeFMBlockLines fm)
    { mdx := frontMatter ++ "\n" ++ buildBody parsed,
      tags := fmTags ((fm.find? (fun kv => kv.1 = "tags")).map (fun kv => kv.2)),
      warnings := [] }
  | none =>
    let tags := extractTags (joinNL contentToParse)
    let parsed := parseIncidentLines contentToParse
    let issueText := joinSep " " parsed.issue
    let finalTitle := match title with
      | some t => if t ≠ "" then t else autoTitle issueText
      | none => autoTitle issueText
    let sentences := (splitSentences issueText).filter (fun s => jsTrim s ≠ "")
    let description := strTake 150 (joinSep ". " (sentences.take 2)) ++ "..."
    let finalCategory := match category with
      | some c => if c ≠ "" then c else "azure-troubleshooting"
      | none => "azure-troubleshooting"
    let mdx := mkAutoFrontmatter today finalTitle description finalCategory tags severity ++
      "\n" ++ buildBody parsed
    let validation := validateMDX mdx
    { mdx, tags, warnings := if validation.warnings.length > 0 then validation.warnings else [] }

/-- Embedding of `generateMDX`. -/
def generateMDX (today rawText : String) (title category severity : Option String)
    (existingFrontmatter : Option Frontmatter) : GenResult :=
  generateMDXFromLines today (stringLines rawText) title category severity existingFrontmatter

/-! ## `POST /api/convert` -/

/-- Request body (`interface ConvertRequest`); `rawText = none` models a
missing or non-string field. -/
structure ConvertRequest where
  rawText : Option String
  title : Option String
  category : Option String
  severity : Option String
  frontmatter : Option Frontmatter

/-- Outcome of the handler: a 200 JSON payload or an error JSON with status. -/
inductive ApiResponse
  | ok (resp : GenResult)
  | err (status : Nat) (msg : String)
deriving DecidableEq, Repr

/-- Embedding of the `POST` handler (the `!body.rawText` truthiness check
catches both a missing field and the empty string). -/
def POST (today : String) (req : ConvertRequest) : ApiResponse :=
  match req.rawText with
  | none => .err 400 "rawText is required and must be a string"
  | some s =>
    if s = "" then .err 400 "rawText is required and must be a string"
    else if (jsTrim s).data.length = 0 then .err 400 "rawText cannot be empty"
    else .ok (generateMDX today s req.title req.category req.severity req.frontmatter)

/-! ## Shape predicates and loop invariants -/

/-- Lines of everything in a list of strings. -/
def linesOfAll (L : List String) : List String := (L.map stringLines).flatten

/-- Every character that immediately follows a `'\n'` satisfies `good`. -/
def afterNLOk (good : Char → Bool) : List Char → Bool
  | [] => true
  | [_] => true
  | a :: b :: rest => (if a = '\n' then good b else true) && afterNLOk good (b :: rest)

/-- The charwise pipe test. -/
def pipeChar (c : Char) : Bool := c = '|'

/-- A rendered markdown table: every line starts with a pipe, and so does
every character following a newline. -/
def TableShaped (it : String) : Prop :=
  (∀ l ∈ stringLines it, strStartsWith l "|" = true) ∧ afterNLOk pipeChar it.data = true

/-- Items stored in `ParsedSections` sections: single lines, or rendered
tables. -/
def ItemOK (it : String) : Prop := chContains it '\n' = false ∨ TableShaped it

instance (it : String) : Decidable (ItemOK it) := by
  unfold ItemOK TableShaped
  infer_instance

def SectionsOK (p : ParsedSections) : Prop :=
  (∀ it ∈ p.issue, ItemOK it) ∧ (∀ it ∈ p.impact, ItemOK it) ∧
  (∀ it ∈ p.rootCause, ItemOK it) ∧ (∀ it ∈ p.fix, ItemOK it) ∧
  (∀ it ∈ p.validation, ItemOK it) ∧ (∀ it ∈ p.lessonsLearned, ItemOK it) ∧
  (∀ it ∈ p.prevention, ItemOK it) ∧ (∀ it ∈ p.finalNote, ItemOK it)

/-- First characters a generic-section output line can have. -/
def secHeadChar (c : Char) : Bool :=
  c = '|' || c = '-' || c = '*' || c = '•' || c = ' ' || c = '(' || c.isDigit

/-- Shape of lines emitted by `buildSection`. -/
def SecLineOk (l : String) : Bool :=
  match l.data.head? with
  | some c => secHeadChar c
  | none => true

/-- Shape of lines of the final `buildFixSection` output (the trailing trim
can reduce an empty-titled `### ` heading to `###`). -/
def FixOutOk (l : String) : Bool := SecLineOk l || strStartsWith l "### " || l = "###"

/-- Loop invariant of `parseMarkedText`: stored items are well shaped and
pending table lines are single lines. -/
def StateOK (s : PState) : Prop :=
  SectionsOK s.sections ∧ ∀ t ∈ s.tableLines, chContains t '\n' = false

/-- The eight canonical section headings of the body template. -/
def bodyHeadings : List String :=
  ["## Issue", "## Impact", "## Root Cause", "## Fix", "## Validation",
   "## Lessons Learned", "## Prevention", "## Final Note"]

/-- Characters that can follow a newline inside an interpolated front-matter
value (pipes and blanks from embedded tables, sentence dots, and the closing
quote or bracket of the template). -/
def fmGood (c : Char) : Bool := c = '|' || c = '"' || c = ']' || c = ' ' || c = '.'

/-- The `issueText` local of `generateMDX`. -/
def issueTextOf (p : ParsedSections) : String := joinSep " " p.issue

/-- The `finalTitle` local of `generateMDX`. -/
def finalTitleOf (title : Option String) (issueText : String) : String :=
  match title with
  | some t => if t ≠ "" then t else autoTitle issueText
  | none => autoTitle issueText

/-- The `description` local of `generateMDX`. -/
def descriptionOf (issueText : String) : String :=
  strTake 150 (joinSep ". "
    (((splitSentences issueText).filter (fun s => jsTrim s ≠ "")).take 2)) ++ "..."

/-- The `finalCategory` local of `generateMDX`. -/
def finalCategoryOf (category : Option String) : String :=
  match category with
  | some c => if c ≠ "" then c else "azure-troubleshooting"
  | none => "azure-troubleshooting"

/-- Possible head characters of generated front-matter lines. -/
def fmHead (c : Char) : Bool := c = '-' || c = 't' || c = 'd' || c = 'c' || fmGood c

/-! ## Infrastructure: lines of concatenations -/

theorem strData_append (a b : String) : (a ++ b).data = a.data ++ b.data := by
  cases a; cases b; rfl

theorem charLines_ne_nil (l : List Char) : charLines l ≠ [] := by
  induction l with
  | nil => simp [charLines]
  | cons c r ih =>
    simp only [charLines]
    split
    · simp
    · split
      · simp
      · simp

theorem stringLines_ne_nil (s : String) : stringLines s ≠ [] := by
  simp [stringLines, charLines_ne_nil]

theorem charLines_noNL {l : List Char} (h : ∀ c ∈ l, c ≠ '\n') : charLines l = [l] := by
  induction l with
  | nil => rfl
  | cons c r ih =>
    have hc : c ≠ '\n' := h c (by simp)
    have hr : charLines r = [r] := ih (fun x hx => h x (by simp [hx]))
    simp [charLines, hc, hr]

theorem stringLines_noNL {s : String} (h : chContains s '\n' = false) : stringLines s = [s] := by
  have : ∀ c ∈ s.data, c ≠ '\n' := by
    intro c hc
    intro hEq
    subst hEq
    simp [chContains, List.contains_eq_any_beq] at h
    exact h hc
  simp [stringLines, charLines_noNL this]

theorem charLines_exists_cons (l : List Char) : ∃ h t, charLines l = h :: t := by
  cases hq : charLines l with
  | nil => exact absurd hq (charLines_ne_nil l)
  | cons a b => exact ⟨a, b, rfl⟩

theorem charLines_cons (c : Char) (l : List Char) :
    charLines (c :: l) =
      if c = '\n' then [] :: charLines l
      else match charLines l with
        | [] => [[c]]
        | h :: t => (c :: h) :: t := rfl

theorem getLastD_of_ne_nil {α : Type} {l : List α} (h : l ≠ []) (d₁ d₂ : α) :
    l.getLastD d₁ = l.getLastD d₂ := by
  induction l generalizing d₁ d₂ with
  | nil => exact absurd rfl h
  | cons a t ih =>
    cases t with
    | nil => rfl
    | cons b t' => simp [List.getLastD]

theorem charLines_append_nl (xs ys : List Char) :
    charLines (xs ++ '\n' :: ys) = charLines xs ++ charLines ys := by
  induction xs with
  | nil => simp [charLines]
  | cons c r ih =>
    rw [List.cons_append, charLines_cons, charLines_cons, ih]
    by_cases hc : c = '\n'
    · rw [if_pos hc, if_pos hc, List.cons_append]
    · rw [if_neg hc, if_neg hc]
      obtain ⟨h, t, hr⟩ := charLines_exists_cons r
      rw [hr]
      simp

theorem stringLines_append_nl (a b : String) :
    stringLines (a ++ "\n" ++ b) = stringLines a ++ stringLines b := by
  have hdata : (a ++ "\n" ++ b).data = a.data ++ '\n' :: b.data := by
    simp [strData_append]
  simp [stringLines, hdata, charLines_append_nl]

/-- Lines of a general concatenation: all of the left side's lines but the
last, then the merged boundary line, then the tail of the right side's. -/
theorem charLines_append (xs ys : List Char) :
    charLines (xs ++ ys) =
      (charLines xs).dropLast ++
        ((charLines xs).getLastD [] ++ (charLines ys).headD []) :: (charLines ys).tail := by
  induction xs with
  | nil =>
    obtain ⟨h, t, hy⟩ := charLines_exists_cons ys
    simp [charLines, hy]
  | cons c r ih =>
    rw [List.cons_append, charLines_cons, charLines_cons, ih]
    obtain ⟨h, t, hr⟩ := charLines_exists_cons r
    by_cases hc : c = '\n'
    · rw [if_pos hc, if_pos hc, hr]
      cases t with
      | nil => simp [List.getLastD]
      | cons h2 t2 => simp [List.getLastD]
    · rw [if_neg hc, if_neg hc, hr]
      cases t with
      | nil => simp [List.getLastD]
      | cons h2 t2 => simp [List.getLastD]

theorem mk_getLastD_append (x y : List Char) (xs : List (List Char)) :
    (⟨(x :: xs).getLastD [] ++ y⟩ : String) =
      ((x :: xs).map (fun l => (⟨l⟩ : String))).getLastD "" ++ ⟨y⟩ := by
  induction xs generalizing x with
  | nil => rfl
  | cons x' xs' ih => simpa [List.getLastD] using ih x'

theorem stringLines_append (a b : String) :
    stringLines (a ++ b) =
      (stringLines a).dropLast ++
        ((stringLines a).getLastD "" ++ (stringLines b).headD "") :: (stringLines b).tail := by
  obtain ⟨x, xs, ha⟩ := charLines_exists_cons a.data
  obtain ⟨y, ys, hb⟩ := charLines_exists_cons b.data
  have key := charLines_append a.data b.data
  simp only [stringLines, strData_append, key, ha, hb]
  simp only [List.map_append, List.map_cons, List.map_dropLast, List.tail_cons]
  congr 2
  exact mk_getLastD_append x y xs

/-! ## Infrastructure: lines of joins, heads of lines -/


theorem joinNL_aux (L : List String) (a b : String) :
    List.foldl (fun acc z => acc ++ "\n" ++ z) (a ++ b) L =
      a ++ List.foldl (fun acc z => acc ++ "\n" ++ z) b L := by
  induction L generalizing b with
  | nil => rfl
  | cons z zs ih =>
    rw [List.foldl_cons, List.foldl_cons]
    have h1 : a ++ b ++ "\n" ++ z = a ++ (b ++ "\n" ++ z) := by
      simp [String.append_assoc]
    rw [h1]
    exact ih (b ++ "\n" ++ z)

theorem joinNL_cons_cons (x y : String) (ys : List String) :
    joinNL (x :: y :: ys) = x ++ "\n" ++ joinNL (y :: ys) :=
  joinNL_aux ys (x ++ "\n") y

theorem stringLines_joinNL (L : List String) (h : L ≠ []) :
    stringLines (joinNL L) = linesOfAll L := by
  induction L with
  | nil => exact absurd rfl h
  | cons x ys ih =>
    cases ys with
    | nil => simp [joinNL, linesOfAll]
    | cons y ys' =>
      rw [joinNL_cons_cons, stringLines_append_nl, ih (by simp)]
      simp [linesOfAll]

/-! ## Infrastructure: lines of prefixes, trim decompositions -/

theorem charLines_take_pair (l : List Char) :
    ∀ m : Nat,
      (∃ n, (charLines (l.take m)).headD [] = ((charLines l).headD []).take n) ∧
      (∀ x ∈ (charLines (l.take m)).tail, ∃ y ∈ (charLines l).tail, ∃ n, x = y.take n) := by
  induction l with
  | nil =>
    intro m
    refine ⟨⟨0, by simp [charLines]⟩, ?_⟩
    simp [charLines]
  | cons c r ih =>
    intro m
    cases m with
    | zero =>
      refine ⟨⟨0, by simp [charLines]⟩, ?_⟩
      simp [charLines]
    | succ m' =>
      rw [List.take_succ_cons]
      by_cases hc : c = '\n'
      · subst hc
        rw [charLines_cons, charLines_cons, if_pos rfl, if_pos rfl]
        refine ⟨⟨0, by simp⟩, ?_⟩
        intro x hx
        simp only [List.tail_cons] at hx ⊢
        obtain ⟨h0, t0, hr0⟩ := charLines_exists_cons (r.take m')
        obtain ⟨h1, t1, hr1⟩ := charLines_exists_cons r
        rw [hr0] at hx
        rcases List.mem_cons.mp hx with hx1 | hx1
        · subst hx1
          obtain ⟨n, hn⟩ := (ih m').1
          rw [hr0, hr1] at hn
          simp only [List.headD_cons] at hn
          exact ⟨h1, by simp [hr1], n, hn⟩
        · obtain ⟨y, hy, n, hyn⟩ := (ih m').2 x (by rw [hr0]; simpa using hx1)
          rw [hr1] at hy
          exact ⟨y, by rw [hr1]; exact List.mem_cons_of_mem _ hy, n, hyn⟩
      · rw [charLines_cons, charLines_cons, if_neg hc, if_neg hc]
        obtain ⟨h0, t0, hr0⟩ := charLines_exists_cons (r.take m')
        obtain ⟨h1, t1, hr1⟩ := charLines_exists_cons r
        rw [hr0, hr1]
        constructor
        · obtain ⟨n, hn⟩ := (ih m').1
          rw [hr0, hr1] at hn
          simp only [List.headD_cons] at hn
          exact ⟨n + 1, by simp [hn]⟩
        · intro x hx
          simp only [List.tail_cons] at hx ⊢
          obtain ⟨y, hy, n, hyn⟩ := (ih m').2 x (by rw [hr0]; simpa using hx)
          rw [hr1] at hy
          exact ⟨y, hy, n, hyn⟩

theorem charLines_take_mem (l : List Char) (m : Nat) :
    ∀ x ∈ charLines (l.take m), ∃ y ∈ charLines l, ∃ n, x = y.take n := by
  intro x hx
  obtain ⟨hh, ht⟩ := charLines_take_pair l m
  obtain ⟨h0, t0, hr0⟩ := charLines_exists_cons (l.take m)
  obtain ⟨h1, t1, hr1⟩ := charLines_exists_cons l
  rw [hr0] at hx
  rcases List.mem_cons.mp hx with hx1 | hx1
  · subst hx1
    obtain ⟨n, hn⟩ := hh
    rw [hr0, hr1] at hn
    simp only [List.headD_cons] at hn
    exact ⟨h1, by simp [hr1], n, hn⟩
  · obtain ⟨y, hy, n, hyn⟩ := ht x (by rw [hr0]; simpa using hx1)
    rw [hr1] at hy
    exact ⟨y, by rw [hr1]; exact List.mem_cons_of_mem _ hy, n, hyn⟩

theorem trimRightChars_decomp (l : List Char) :
    l = trimRightChars l ++ (l.reverse.takeWhile isJsWs).reverse := by
  rw [trimRightChars, ← List.reverse_append, List.takeWhile_append_dropWhile,
    List.reverse_reverse]

theorem trimRightChars_ws (l : List Char) :
    ∀ c ∈ (l.reverse.takeWhile isJsWs).reverse, isJsWs c = true := by
  intro c hc
  exact List.mem_takeWhile_imp (List.mem_reverse.mp hc)

/-- A right-trimmed string plus an all-whitespace remainder recovers the
original. -/
theorem jsTrimEnd_decomp (s : String) :
    ∃ w : String, s = jsTrimEnd s ++ w ∧ ∀ c ∈ w.data, isJsWs c = true := by
  refine ⟨⟨(s.data.reverse.takeWhile isJsWs).reverse⟩, ?_, trimRightChars_ws s.data⟩
  apply String.ext
  rw [strData_append]
  exact trimRightChars_decomp s.data

theorem jsTrim_eq_trimEnd (s : String) (h : ∀ c, s.data.head? = some c → isJsWs c = false) :
    jsTrim s = jsTrimEnd s := by
  unfold jsTrim jsTrimEnd trimLeftChars
  cases hd : s.data with
  | nil => simp
  | cons c r =>
    have := h c (by rw [hd]; rfl)
    simp [List.dropWhile_cons, this]

theorem dropWhile_eq_drop (p : Char → Bool) (l : List Char) :
    l.dropWhile p = l.drop (l.takeWhile p).length := by
  induction l with
  | nil => rfl
  | cons c r ih =>
    by_cases hc : p c
    · simp [List.dropWhile_cons, List.takeWhile_cons, hc, ih]
    · simp [List.dropWhile_cons, List.takeWhile_cons, hc]

theorem trimRightChars_eq_take (l : List Char) :
    trimRightChars l = l.take (trimRightChars l).length := by
  calc trimRightChars l
      = (trimRightChars l ++ (l.reverse.takeWhile isJsWs).reverse).take
          (trimRightChars l).length := by rw [List.take_left]
    _ = l.take (trimRightChars l).length := by rw [← trimRightChars_decomp l]

theorem mem_jsTrim_sub (s : String) : ∀ c ∈ (jsTrim s).data, c ∈ s.data := by
  intro c hc
  have h1 : c ∈ (trimLeftChars s.data).reverse.dropWhile isJsWs := List.mem_reverse.mp hc
  have h2 : c ∈ (trimLeftChars s.data).reverse := (List.dropWhile_sublist _).mem h1
  have h3 : c ∈ trimLeftChars s.data := List.mem_reverse.mp h2
  exact (List.dropWhile_sublist _).mem h3

/-! ## Infrastructure: the character-after-newline invariant -/


theorem afterNLOk_tail (good : Char → Bool) (a : Char) (l : List Char)
    (h : afterNLOk good (a :: l) = true) : afterNLOk good l = true := by
  cases l with
  | nil => rfl
  | cons b rest => exact (Bool.and_elim_right h)

theorem afterNLOk_append (good : Char → Bool) (a b : List Char)
    (ha : afterNLOk good a = true) (hb : afterNLOk good b = true)
    (hbd : a.getLast? = some '\n' → ∀ c, b.head? = some c → good c = true) :
    afterNLOk good (a ++ b) = true := by
  induction a with
  | nil => simpa using hb
  | cons x r ih =>
    cases r with
    | nil =>
      cases b with
      | nil => rfl
      | cons c cs =>
        show ((if x = '\n' then good c else true) && afterNLOk good (c :: cs)) = true
        rw [hb, Bool.and_true]
        by_cases hx : x = '\n'
        · rw [if_pos hx]
          exact hbd (by rw [hx]; rfl) c rfl
        · rw [if_neg hx]
    | cons y r' =>
      show ((if x = '\n' then good y else true) && afterNLOk good ((y :: r') ++ b)) = true
      have h1 : (if x = '\n' then good y else true) = true := Bool.and_elim_left ha
      have h2 : afterNLOk good ((y :: r') ++ b) = true := by
        refine ih (Bool.and_elim_right ha) ?_
        intro hlast c hc
        refine hbd ?_ c hc
        rw [List.getLast?_cons_cons]
        exact hlast
      rw [h1, h2]
      rfl

theorem afterNLOk_take (good : Char → Bool) (l : List Char) (h : afterNLOk good l = true) :
    ∀ m, afterNLOk good (l.take m) = true := by
  induction l with
  | nil => intro m; simp [afterNLOk]
  | cons x r ih =>
    intro m
    cases m with
    | zero => rfl
    | succ m' =>
      rw [List.take_succ_cons]
      cases r with
      | nil => simp [afterNLOk]
      | cons y r' =>
        cases hm : (y :: r').take m' with
        | nil => rfl
        | cons z zs =>
          have hz : z = y := by
            cases m' with
            | zero => simp at hm
            | succ k => rw [List.take_succ_cons] at hm; exact (List.cons.injEq _ _ _ _ ▸ hm).1.symm
          subst hz
          show ((if x = '\n' then good z else true) && afterNLOk good (z :: zs)) = true
          have h1 : (if x = '\n' then good z else true) = true := Bool.and_elim_left h
          have h2 : afterNLOk good (z :: zs) = true := by
            rw [← hm]
            exact ih (Bool.and_elim_right h) m'
          rw [h1, h2]
          rfl

theorem afterNLOk_drop (good : Char → Bool) (l : List Char) (h : afterNLOk good l = true) :
    ∀ m, afterNLOk good (l.drop m) = true := by
  induction l with
  | nil => intro m; simp [afterNLOk]
  | cons x r ih =>
    intro m
    cases m with
    | zero => exact h
    | succ m' =>
      rw [List.drop_succ_cons]
      exact ih (afterNLOk_tail good x r h) m'

theorem afterNLOk_of_noNL (good : Char → Bool) (l : List Char) (h : ∀ c ∈ l, c ≠ '\n') :
    afterNLOk good l = true := by
  induction l with
  | nil => rfl
  | cons x r ih =>
    cases r with
    | nil => rfl
    | cons y r' =>
      show ((if x = '\n' then good y else true) && afterNLOk good (y :: r')) = true
      rw [if_neg (h x (by simp)), ih (fun c hc => h c (by simp [hc]))]
      rfl

/-- Bridge: under the after-newline invariant, every line after the first is
empty or starts with a `good` character. -/
theorem charLines_tail_head_good (good : Char → Bool) :
    ∀ l : List Char, afterNLOk good l = true →
      ∀ x ∈ (charLines l).tail, x = [] ∨ ∃ c, x.head? = some c ∧ good c = true := by
  intro l
  induction l with
  | nil => intro _ x hx; simp [charLines] at hx
  | cons c r ih =>
    intro h x hx
    by_cases hc : c = '\n'
    · subst hc
      rw [charLines_cons, if_pos rfl, List.tail_cons] at hx
      obtain ⟨h1, t1, hr1⟩ := charLines_exists_cons r
      rw [hr1] at hx
      rcases List.mem_cons.mp hx with hx1 | hx1
      · subst hx1
        cases hd : r with
        | nil =>
          left
          have : charLines ([] : List Char) = [[]] := rfl
          rw [hd] at hr1
          rw [this] at hr1
          exact (List.cons.injEq _ _ _ _ ▸ hr1).1.symm
        | cons d r' =>
          by_cases hdn : d = '\n'
          · left
            subst hdn
            rw [hd, charLines_cons, if_pos rfl] at hr1
            exact (List.cons.injEq _ _ _ _ ▸ hr1).1.symm
          · right
            refine ⟨d, ?_, ?_⟩
            · rw [hd, charLines_cons, if_neg hdn] at hr1
              obtain ⟨h2, t2, hr2⟩ := charLines_exists_cons r'
              rw [hr2] at hr1
              have := (List.cons.injEq _ _ _ _ ▸ hr1).1
              rw [← this]
              rfl
            · rw [hd] at h
              show good d = true
              have := Bool.and_elim_left h
              rwa [if_pos rfl] at this
      · exact ih (afterNLOk_tail good _ _ h) x (by rw [hr1]; simpa using hx1)
    · rw [charLines_cons, if_neg hc] at hx
      obtain ⟨h1, t1, hr1⟩ := charLines_exists_cons r
      rw [hr1, List.tail_cons] at hx
      have : x ∈ (charLines r).tail := by rw [hr1]; simpa using hx
      exact ih (afterNLOk_tail good _ _ h) x this

/-! ## Infrastructure: split pieces are slices; split pieces use input characters -/

theorem splitAnyCharAux_slices (sep : List Char) :
    ∀ (rem cur : List Char), ∀ p ∈ splitAnyCharAux sep cur rem,
      ∃ i n, p.data = ((cur.reverse ++ rem).drop i).take n := by
  intro rem
  induction rem with
  | nil =>
    intro cur p hp
    simp only [splitAnyCharAux, List.mem_singleton] at hp
    subst hp
    exact ⟨0, cur.reverse.length, by simp⟩
  | cons x xs ih =>
    intro cur p hp
    simp only [splitAnyCharAux] at hp
    by_cases hx : sep.contains x
    · rw [if_pos hx] at hp
      rcases List.mem_cons.mp hp with hp1 | hp1
      · subst hp1
        refine ⟨0, cur.reverse.length, ?_⟩
        simp [List.take_left]
      · obtain ⟨i, n, hin⟩ := ih [] p hp1
        refine ⟨cur.reverse.length + (i + 1), n, ?_⟩
        rw [List.drop_append]
        simpa [List.drop_succ_cons] using hin
    · rw [if_neg hx] at hp
      obtain ⟨i, n, hin⟩ := ih (x :: cur) p hp
      refine ⟨i, n, ?_⟩
      have hrw : (x :: cur).reverse ++ xs = cur.reverse ++ x :: xs := by simp
      rw [hrw] at hin
      exact hin

theorem splitCharAux_chars (c : Char) :
    ∀ (rem cur : List Char), ∀ p ∈ splitCharAux c cur rem, ∀ x ∈ p.data, x ∈ cur ∨ x ∈ rem := by
  intro rem
  induction rem with
  | nil =>
    intro cur p hp x hx
    simp only [splitCharAux, List.mem_singleton] at hp
    subst hp
    exact Or.inl (List.mem_reverse.mp hx)
  | cons y ys ih =>
    intro cur p hp x hx
    simp only [splitCharAux] at hp
    by_cases hy : y = c
    · rw [if_pos hy] at hp
      rcases List.mem_cons.mp hp with hp1 | hp1
      · subst hp1
        exact Or.inl (List.mem_reverse.mp hx)
      · rcases ih [] p hp1 x hx with h | h
        · simp at h
        · exact Or.inr (by simp [h])
    · rw [if_neg hy] at hp
      rcases ih (y :: cur) p hp x hx with h | h
      · rcases List.mem_cons.mp h with h1 | h1
        · exact Or.inr (by simp [h1])
        · exact Or.inl h1
      · exact Or.inr (by simp [h])

theorem splitWsRunsAux_chars :
    ∀ (fuel : Nat) (rem cur : List Char), ∀ p ∈ splitWsRunsAux fuel cur rem,
      ∀ x ∈ p.data, x ∈ cur ∨ x ∈ rem := by
  intro fuel
  induction fuel with
  | zero =>
    intro rem cur p hp x hx
    simp only [splitWsRunsAux, List.mem_singleton] at hp
    subst hp
    exact Or.inl (List.mem_reverse.mp hx)
  | succ f ih =>
    intro rem cur p hp x hx
    cases rem with
    | nil =>
      simp only [splitWsRunsAux, List.mem_singleton] at hp
      subst hp
      exact Or.inl (List.mem_reverse.mp hx)
    | cons y ys =>
      cases ys with
      | nil =>
        simp only [splitWsRunsAux] at hp
        rcases ih [] (y :: cur) p hp x hx with h | h
        · rcases List.mem_cons.mp h with h1 | h1
          · exact Or.inr (by simp [h1])
          · exact Or.inl h1
        · simp at h
      | cons z zs =>
        simp only [splitWsRunsAux] at hp
        by_cases hyz : isJsWs y && isJsWs z
        · rw [if_pos hyz] at hp
          rcases List.mem_cons.mp hp with hp1 | hp1
          · subst hp1
            exact Or.inl (List.mem_reverse.mp hx)
          · rcases ih ((z :: zs).dropWhile isJsWs) [] p hp1 x hx with h | h
            · simp at h
            · right
              have hsub : x ∈ z :: zs := (List.dropWhile_sublist _).mem h
              simp [List.mem_cons.mp hsub]
        · rw [if_neg hyz] at hp
          rcases ih (z :: zs) (y :: cur) p hp x hx with h | h
          · rcases List.mem_cons.mp h with h1 | h1
            · exact Or.inr (by simp [h1])
            · exact Or.inl h1
          · exact Or.inr (by simp [List.mem_cons.mp h])

/-! ## Section items and rendered line shapes -/

theorem startsWithChars_iff (l p : List Char) :
    startsWithChars l p = true ↔ ∃ r, l = p ++ r := by
  induction p generalizing l with
  | nil => simp [startsWithChars]
  | cons c cs ih =>
    cases l with
    | nil =>
      simp [startsWithChars]
    | cons x xs =>
      simp only [startsWithChars, Bool.and_eq_true, decide_eq_true_eq, ih, List.cons_append,
        List.cons.injEq]
      constructor
      · rintro ⟨h1, r, h2⟩
        exact ⟨r, h1, h2⟩
      · rintro ⟨r, h1, h2⟩
        exact ⟨h1, r, h2⟩

theorem strStartsWith_iff (l p : String) :
    strStartsWith l p = true ↔ ∃ r, l.data = p.data ++ r :=
  startsWithChars_iff l.data p.data

theorem mem_jsTrimEnd_sub (s : String) : ∀ c ∈ (jsTrimEnd s).data, c ∈ s.data := by
  intro c hc
  have h1 : c ∈ s.data.reverse.dropWhile isJsWs := List.mem_reverse.mp hc
  exact List.mem_reverse.mp ((List.dropWhile_sublist _).mem h1)

theorem chContains_false_iff (s : String) (c : Char) :
    chContains s c = false ↔ ∀ x ∈ s.data, x ≠ c := by
  simp only [chContains]
  rw [← Bool.not_eq_true, List.contains_eq_any_beq]
  simp only [List.any_eq_true, beq_iff_eq, not_exists, not_and]
  constructor
  · intro h x hx hxc
    exact h x hx hxc.symm
  · intro h x hx hxc
    exact h x hx hxc.symm

theorem chContains_append_false {a b : String} {c : Char} (ha : chContains a c = false)
    (hb : chContains b c = false) : chContains (a ++ b) c = false := by
  rw [chContains_false_iff] at ha hb ⊢
  intro x hx
  rw [strData_append] at hx
  rcases List.mem_append.mp hx with h | h
  · exact ha x h
  · exact hb x h


theorem secLineOk_of_head {l : String} {c : Char} (h : l.data.head? = some c)
    (hc : secHeadChar c = true) : SecLineOk l = true := by
  unfold SecLineOk
  rw [h]
  exact hc

theorem startsWith_pipe_head {l : String} (h : strStartsWith l "|" = true) :
    l.data.head? = some '|' := by
  obtain ⟨r, hr⟩ := (strStartsWith_iff l "|").mp h
  rw [hr]
  rfl

theorem startsWithChars_single {l : List Char} {c : Char} (h : l.head? = some c) :
    startsWithChars l [c] = true := by
  cases l with
  | nil => simp at h
  | cons x xs =>
    have : x = c := by simpa using h
    simp [startsWithChars, this]

theorem charLines_headD_head (l : List Char) :
    ((charLines l).headD []).head? = if l.head? = some '\n' then none else l.head? := by
  cases l with
  | nil => rfl
  | cons c r =>
    rw [charLines_cons]
    by_cases hc : c = '\n'
    · subst hc
      simp
    · rw [if_neg hc]
      obtain ⟨h1, t1, hr⟩ := charLines_exists_cons r
      rw [hr]
      simp [List.headD_cons, hc]

theorem tableShaped_startsWith {l : String} (h : TableShaped l) :
    strStartsWith l "|" = true := by
  obtain ⟨hlines, _⟩ := h
  have hmem : (⟨(charLines l.data).headD []⟩ : String) ∈ stringLines l := by
    obtain ⟨h0, t0, hl0⟩ := charLines_exists_cons l.data
    simp [stringLines, hl0]
  have hh : ((charLines l.data).headD []).head? = some '|' :=
    startsWith_pipe_head (hlines _ hmem)
  rw [charLines_headD_head] at hh
  by_cases hc : l.data.head? = some '\n'
  · rw [if_pos hc] at hh
    exact absurd hh (by simp)
  · rw [if_neg hc] at hh
    exact startsWithChars_single hh

theorem itemOK_noNL {l : String} (h : ItemOK l) (hn : strStartsWith l "|" = false) :
    chContains l '\n' = false := by
  cases h with
  | inl h => exact h
  | inr h =>
    rw [tableShaped_startsWith h] at hn
    exact absurd hn (by simp)

theorem entry_ok_of_noNL_head {e : String} (h : chContains e '\n' = false)
    (hhd : SecLineOk e = true) : ∀ x ∈ stringLines e, SecLineOk x = true := by
  rw [stringLines_noNL h]
  intro x hx
  rw [List.mem_singleton] at hx
  subst hx
  exact hhd

theorem chContains_jsTrimEnd_false {s : String} {c : Char} (h : chContains s c = false) :
    chContains (jsTrimEnd s) c = false := by
  rw [chContains_false_iff] at h ⊢
  intro x hx
  exact h x (mem_jsTrimEnd_sub s x hx)

theorem chContains_jsTrim_false {s : String} {c : Char} (h : chContains s c = false) :
    chContains (jsTrim s) c = false := by
  rw [chContains_false_iff] at h ⊢
  intro x hx
  exact h x (mem_jsTrim_sub s x hx)

theorem takeWhile_ne_nil_head {p : Char → Bool} {l : List Char}
    (h : l.takeWhile p ≠ []) : ∃ c r, l = c :: r ∧ p c = true := by
  cases hl : l with
  | nil => rw [hl] at h; simp at h
  | cons c r =>
    refine ⟨c, r, rfl, ?_⟩
    rw [hl, List.takeWhile_cons] at h
    by_cases hp : p c
    · exact hp
    · rw [if_neg hp] at h
      exact absurd rfl h

theorem bulletLine_head {l : String} (h : isBulletLine l = true) :
    ∃ c, l.data.head? = some c ∧ secHeadChar c = true := by
  unfold isBulletLine at h
  cases hd : l.data with
  | nil => rw [hd] at h; simp at h
  | cons c r =>
    cases r with
    | nil => rw [hd] at h; simp at h
    | cons d r' =>
      rw [hd] at h
      simp only [Bool.and_eq_true, Bool.or_eq_true, decide_eq_true_eq] at h
      refine ⟨c, rfl, ?_⟩
      rcases h.1 with (h1 | h1) | h1 <;> simp [secHeadChar, h1]

theorem numberedLine_head {l : String} (h : isNumberedLine l = true) :
    ∃ c, l.data.head? = some c ∧ secHeadChar c = true := by
  unfold isNumberedLine at h
  simp only [Bool.and_eq_true, decide_eq_true_eq, ne_eq] at h
  obtain ⟨c, r, hl, hc⟩ := takeWhile_ne_nil_head h.1
  refine ⟨c, by rw [hl]; rfl, ?_⟩
  simp [secHeadChar, hc]

theorem jsHierMatch_some {l grp : String} (h : jsHierMatch l = some grp) :
    grp = jsTrimEnd l ∧ chContains grp '\n' = false := by
  unfold jsHierMatch at h
  by_cases hc : strEndsWith (jsTrimEnd l) ":" = true ∧ ¬ chContains (jsTrimEnd l) '\n' = true
  · rw [if_pos (by simpa using hc)] at h
    obtain rfl : jsTrimEnd l = grp := by simpa using h
    exact ⟨rfl, by simpa using hc.2⟩
  · rw [if_neg (by simpa using hc)] at h
    simp at h

theorem secLineOk_dash (x : String) : SecLineOk ("- " ++ x) = true := by
  have h : ("- " ++ x).data.head? = some '-' := by rw [strData_append]; rfl
  exact secLineOk_of_head h rfl

theorem secLineOk_sp2 (x : String) : SecLineOk ("  " ++ x) = true := by
  have h : ("  " ++ x).data.head? = some ' ' := by rw [strData_append]; rfl
  exact secLineOk_of_head h rfl

theorem secLineOk_sp2dash (x : String) : SecLineOk ("  - " ++ x) = true := by
  have h : ("  - " ++ x).data.head? = some ' ' := by rw [strData_append]; rfl
  exact secLineOk_of_head h rfl

theorem mem_lines_joinNL {L : List String} {x : String} (hx : x ∈ stringLines (joinNL L)) :
    x = "" ∨ ∃ e ∈ L, x ∈ stringLines e := by
  cases L with
  | nil =>
    left
    simpa [joinNL, stringLines, charLines] using hx
  | cons a as =>
    right
    rw [stringLines_joinNL _ (by simp)] at hx
    simp only [linesOfAll, List.mem_flatten, List.mem_map] at hx
    obtain ⟨ls, ⟨e, he, rfl⟩, hxl⟩ := hx
    exact ⟨e, he, hxl⟩

theorem emptyLinesOk : ∀ x ∈ stringLines "", SecLineOk x = true := by
  intro x hx
  rw [stringLines_noNL (by decide)] at hx
  rw [List.mem_singleton] at hx
  subst hx
  rfl

theorem buildSectionAux_entries (fuel : Nat) :
    ∀ (acc rest : List String), (∀ it ∈ rest, ItemOK it) →
      (∀ e ∈ acc, ∀ x ∈ stringLines e, SecLineOk x = true) →
      ∀ e ∈ buildSectionAux fuel acc rest, ∀ x ∈ stringLines e, SecLineOk x = true := by
  induction fuel with
  | zero => intro acc rest _ hacc; exact hacc
  | succ f ih =>
    intro acc rest hrest hacc
    cases rest with
    | nil => exact hacc
    | cons line rest' =>
      have hline : ItemOK line := hrest line (by simp)
      have hrest' : ∀ it ∈ rest', ItemOK it := fun it hit => hrest it (by simp [hit])
      simp only [buildSectionAux]
      by_cases h1 : strStartsWith line "|"
      · rw [if_pos h1]
        have hlineOk : ∀ x ∈ stringLines line, SecLineOk x = true := by
          cases hline with
          | inl hnl =>
            exact entry_ok_of_noNL_head hnl
              (secLineOk_of_head (startsWith_pipe_head h1) rfl)
          | inr hts =>
            intro x hx
            exact secLineOk_of_head (startsWith_pipe_head (hts.1 x hx)) rfl
        refine ih _ _ hrest' ?_
        intro e he
        by_cases hdash : lastStartsDash acc
        · rw [if_pos hdash] at he
          rcases List.mem_append.mp he with h | h
          · rcases List.mem_append.mp h with h2 | h2
            · exact hacc e h2
            · rw [List.mem_singleton] at h2
              subst h2
              exact emptyLinesOk
          · rw [List.mem_singleton] at h
            subst h
            exact hlineOk
        · rw [if_neg hdash] at he
          rcases List.mem_append.mp he with h | h
          · exact hacc e h
          · rw [List.mem_singleton] at h
            subst h
            exact hlineOk
      · rw [if_neg h1]
        have hnl : chContains line '\n' = false := itemOK_noNL hline (by simpa using h1)
        have hfb : ∀ e ∈ buildSectionFallback acc line,
            ∀ x ∈ stringLines e, SecLineOk x = true := by
          intro e he
          unfold buildSectionFallback at he
          by_cases hb : isBulletLine line || isNumberedLine line
          · rw [if_pos hb] at he
            rcases List.mem_append.mp he with h | h
            · exact hacc e h
            · rw [List.mem_singleton] at h
              subst h
              rcases Bool.or_eq_true _ _ ▸ hb with hb1 | hb1
              · obtain ⟨c, hc1, hc2⟩ := bulletLine_head hb1
                exact entry_ok_of_noNL_head hnl (secLineOk_of_head hc1 hc2)
              · obtain ⟨c, hc1, hc2⟩ := numberedLine_head hb1
                exact entry_ok_of_noNL_head hnl (secLineOk_of_head hc1 hc2)
          · rw [if_neg hb] at he
            rcases List.mem_append.mp he with h | h
            · exact hacc e h
            · rw [List.mem_singleton] at h
              subst h
              exact entry_ok_of_noNL_head
                (chContains_append_false (by decide) hnl) (secLineOk_dash line)
        cases hm : jsHierMatch line with
        | none => exact ih _ _ hrest' hfb
        | some grp =>
          cases rest' with
          | nil => exact ih _ _ (by simp) hfb
          | cons nxt rest'' =>
            dsimp only
            by_cases h2 : strStartsWith nxt "|"
            · rw [if_pos h2]
              exact ih _ _ hrest' hfb
            · rw [if_neg h2]
              refine ih _ _ (fun it hit => hrest' it ((List.drop_sublist _ _).mem hit)) ?_
              intro e he
              rcases List.mem_append.mp he with he1 | he1
              · rcases List.mem_append.mp he1 with he2 | he2
                · exact hacc e he2
                · rw [List.mem_singleton] at he2
                  subst he2
                  obtain ⟨hgrp, hgnl⟩ := jsHierMatch_some hm
                  exact entry_ok_of_noNL_head (chContains_append_false (by decide) hgnl)
                    (secLineOk_dash grp)
              · simp only [List.mem_map] at he1
                obtain ⟨n, hn, rfl⟩ := he1
                have hnOK : ItemOK n :=
                  hrest' n ((List.takeWhile_sublist _).mem hn)
                have hnPred : nestedPred n = true := List.mem_takeWhile_imp hn
                have hnPipe : strStartsWith n "|" = false := by
                  unfold nestedPred at hnPred
                  rcases Bool.and_eq_true _ _ ▸ hnPred with ⟨hp, _⟩
                  simpa using hp
                have hnNL : chContains n '\n' = false := itemOK_noNL hnOK hnPipe
                by_cases hnd : strStartsWith n "-"
                · rw [if_pos hnd]
                  exact entry_ok_of_noNL_head (chContains_append_false (by decide) hnNL)
                    (secLineOk_sp2 n)
                · rw [if_neg hnd]
                  exact entry_ok_of_noNL_head (chContains_append_false (by decide) hnNL)
                    (secLineOk_sp2dash n)

theorem startsWithChars_nil (l : List Char) : startsWithChars l [] = true := by
  cases l <;> rfl

theorem startsWithChars_append_self (p r : List Char) :
    startsWithChars (p ++ r) p = true := by
  induction p with
  | nil => exact startsWithChars_nil r
  | cons c cs ih => simp [startsWithChars, ih]

theorem strStartsWith_append_self (p r : String) : strStartsWith (p ++ r) p = true := by
  unfold strStartsWith
  rw [strData_append]
  exact startsWithChars_append_self p.data r.data

theorem charLines_chars_sub (l : List Char) : ∀ x ∈ charLines l, ∀ c ∈ x, c ∈ l := by
  induction l with
  | nil =>
    intro x hx c hc
    simp [charLines] at hx
    subst hx
    simp at hc
  | cons a r ih =>
    intro x hx c hc
    by_cases ha : a = '\n'
    · rw [charLines_cons, if_pos ha] at hx
      rcases List.mem_cons.mp hx with h | h
      · subst h; simp at hc
      · exact List.mem_cons_of_mem _ (ih x h c hc)
    · rw [charLines_cons, if_neg ha] at hx
      obtain ⟨h1, t1, hr⟩ := charLines_exists_cons r
      rw [hr] at hx
      rcases List.mem_cons.mp hx with h | h
      · subst h
        rcases List.mem_cons.mp hc with h2 | h2
        · simp [h2]
        · have : c ∈ r := ih h1 (by rw [hr]; simp) c h2
          simp [this]
      · have : c ∈ r := ih x (by rw [hr]; exact List.mem_cons_of_mem _ h) c hc
        simp [this]

theorem lines_chars_sub (s : String) : ∀ x ∈ stringLines s, ∀ c ∈ x.data, c ∈ s.data := by
  intro x hx c hc
  simp only [stringLines, List.mem_map] at hx
  obtain ⟨ld, hld, rfl⟩ := hx
  exact charLines_chars_sub s.data ld hld c hc

/-- Lines of a renderer output item that starts with a pipe. -/
theorem pipeItem_lines_ok {l : String} (h : ItemOK l) (hp : strStartsWith l "|" = true) :
    ∀ x ∈ stringLines l, SecLineOk x = true := by
  cases h with
  | inl hnl =>
    exact entry_ok_of_noNL_head hnl (secLineOk_of_head (startsWith_pipe_head hp) rfl)
  | inr hts =>
    intro x hx
    exact secLineOk_of_head (startsWith_pipe_head (hts.1 x hx)) rfl

theorem stepMarkerRest_chars {l r : String} (h : stepMarkerRest l = some r) :
    ∀ c ∈ r.data, c ∈ l.data := by
  unfold stepMarkerRest at h
  intro x hx
  split at h
  · rename_i a b c2 d rest heq
    split at h
    · split at h
      · split at h
        · rename_i restChars heq2
          have hr : r = ⟨restChars.dropWhile isJsWs⟩ := by
            simp only [Option.some.injEq] at h
            exact h.symm
          subst hr
          have h1 : x ∈ restChars := (List.dropWhile_sublist _).mem hx
          have h2 : x ∈ (rest.dropWhile isJsWs).dropWhile Char.isDigit := by
            rw [heq2]
            exact List.mem_cons_of_mem _ h1
          have h3 : x ∈ rest.dropWhile isJsWs := (List.dropWhile_sublist _).mem h2
          have h4 : x ∈ rest := (List.dropWhile_sublist _).mem h3
          rw [heq]
          simp [h4]
        · exact Option.noConfusion h
      · exact Option.noConfusion h
    · exact Option.noConfusion h
  · exact Option.noConfusion h

theorem buildSection_lines_ok (items : List String) (h : ∀ it ∈ items, ItemOK it) :
    ∀ x ∈ stringLines (buildSection items), SecLineOk x = true := by
  intro x hx
  unfold buildSection at hx
  by_cases hlen : items.length = 0
  · rw [if_pos hlen] at hx
    rw [stringLines_noNL (by decide)] at hx
    rw [List.mem_singleton] at hx
    subst hx
    decide
  · rw [if_neg hlen] at hx
    rcases mem_lines_joinNL hx with h1 | ⟨e, he, hxe⟩
    · subst h1
      rfl
    · exact buildSectionAux_entries items.length [] items h (by simp) e he x hxe

/-! ## Shape of the Fix renderer output -/

theorem chContains_true_iff (s : String) (c : Char) :
    chContains s c = true ↔ c ∈ s.data := by
  constructor
  · intro h
    by_contra hmem
    have hf := (chContains_false_iff s c).mpr (fun x hx hxc => hmem (hxc ▸ hx))
    rw [h] at hf
    exact Bool.noConfusion hf
  · intro hmem
    by_contra h
    have hf : chContains s c = false := Bool.eq_false_iff.mpr h
    exact ((chContains_false_iff s c).mp hf) c hmem rfl

theorem wholeLineCapture_props {l cap : String} (h : wholeLineCapture l = some cap) :
    cap = l ∧ chContains l '\n' = false := by
  unfold wholeLineCapture at h
  split at h
  · rename_i hcond
    simp only [Bool.and_eq_true, List.all_eq_true] at hcond
    refine ⟨by simpa using h.symm, ?_⟩
    rw [chContains_false_iff]
    intro x hx hxn
    have := hcond.2 x hx
    rw [hxn] at this
    simp [isJsLineTerm] at this
  · exact Option.noConfusion h

theorem jsStepMatch_props {l cap : String} (h : jsStepMatch l = some cap) :
    chContains cap '\n' = false ∧ ∀ c ∈ cap.data, c ∈ l.data := by
  unfold jsStepMatch at h
  have noTermNoNL : ∀ m : String, (m.data.all fun c => ¬ isJsLineTerm c) = true →
      chContains m '\n' = false := by
    intro m hm
    rw [chContains_false_iff]
    intro x hx hxn
    rw [List.all_eq_true] at hm
    have := hm x hx
    rw [hxn] at this
    simp [isJsLineTerm] at this
  split at h
  · rename_i rest hs
    split at h
    · split at h
      · obtain rfl : rest = cap := by simpa using h
        rename_i hne hall
        exact ⟨noTermNoNL _ hall, stepMarkerRest_chars hs⟩
      · obtain ⟨rfl, hnl⟩ := wholeLineCapture_props h
        exact ⟨hnl, fun c hc => hc⟩
    · split at h
      · rename_i hne c hlast
        split at h
        · rename_i hcw
          obtain rfl : (⟨[c]⟩ : String) = cap := by simpa using h
          simp only [Bool.and_eq_true] at hcw
          constructor
          · rw [chContains_false_iff]
            intro x hx hxn
            rw [List.mem_singleton] at hx
            subst hx
            rw [hxn] at hcw
            have := hcw.2
            simp [isJsLineTerm] at this
          · intro x hx
            rw [List.mem_singleton] at hx
            subst hx
            exact List.mem_of_mem_getLast? hlast
        · obtain ⟨rfl, hnl⟩ := wholeLineCapture_props h
          exact ⟨hnl, fun c hc => hc⟩
      · obtain ⟨rfl, hnl⟩ := wholeLineCapture_props h
        exact ⟨hnl, fun c hc => hc⟩
  · obtain ⟨rfl, hnl⟩ := wholeLineCapture_props h
    exact ⟨hnl, fun c hc => hc⟩

theorem jsStepMatch_none_of_pipe_nl {l : String} (hp : strStartsWith l "|" = true)
    (hnl : chContains l '\n' = true) : jsStepMatch l = none := by
  have hs : stepMarkerRest l = none := by
    obtain ⟨r, hr⟩ := (strStartsWith_iff l "|").mp hp
    unfold stepMarkerRest
    rw [hr]
    rcases r with _ | ⟨b, _ | ⟨c, _ | ⟨d, rest⟩⟩⟩ <;> rfl
  have hw : wholeLineCapture l = none := by
    unfold wholeLineCapture
    rw [if_neg]
    intro hcond
    simp only [Bool.and_eq_true, List.all_eq_true] at hcond
    have := hcond.2 '\n' ((chContains_true_iff l '\n').mp hnl)
    simp [isJsLineTerm] at this
  unfold jsStepMatch
  rw [hs]
  exact hw

theorem stripBulletMark_chars (l : String) :
    ∀ c ∈ (stripBulletMark l).data, c ∈ l.data := by
  intro c hc
  unfold stripBulletMark at hc
  split at hc
  · rename_i x rest heq
    split at hc
    · rw [heq]
      exact List.mem_cons_of_mem _ ((List.dropWhile_sublist _).mem hc)
    · exact hc
  · exact hc

theorem stripNumberMark_chars (l : String) :
    ∀ c ∈ (stripNumberMark l).data, c ∈ l.data := by
  unfold stripNumberMark
  intro c hc
  split at hc
  · split at hc
    · rename_i restChars heq
      have h1 : c ∈ restChars := (List.dropWhile_sublist _).mem hc
      have h2 : c ∈ l.data.dropWhile Char.isDigit := by
        rw [heq]
        exact List.mem_cons_of_mem _ h1
      exact (List.dropWhile_sublist _).mem h2
    · exact hc
  · exact hc

theorem buildFixAux_entries (fuel : Nat) :
    ∀ rest : List String, (∀ it ∈ rest, ItemOK it) →
      ∀ e ∈ buildFixAux fuel rest, ∀ x ∈ stringLines e,
        (SecLineOk x || strStartsWith x "### ") = true := by
  induction fuel with
  | zero =>
    intro rest _ e he
    simp [buildFixAux] at he
  | succ f ih =>
    intro rest hrest e he
    cases rest with
    | nil => simp [buildFixAux] at he
    | cons line rest' =>
      have hline := hrest line (by simp)
      have hrest' : ∀ it ∈ rest', ItemOK it := fun it hit => hrest it (by simp [hit])
      simp only [buildFixAux] at he
      split at he
      · exact ih rest' hrest' e he
      · rename_i capture hs
        have hlnl : chContains line '\n' = false := by
          cases hline with
          | inl h => exact h
          | inr hts =>
            by_cases hnl : chContains line '\n' = true
            · rw [jsStepMatch_none_of_pipe_nl (tableShaped_startsWith hts) hnl] at hs
              exact Option.noConfusion hs
            · simpa using hnl
        have hcap := jsStepMatch_props hs
        have hcnl : chContains (jsTrim capture) '\n' = false := by
          rw [chContains_false_iff]
          intro x hx hxn
          have h1 : x ∈ capture.data := mem_jsTrim_sub capture x hx
          have := (chContains_false_iff capture '\n').mp hcap.1
          exact this x h1 hxn
        split at he
        · rcases List.mem_cons.mp he with h | h
          · subst h
            intro x hx
            rw [stringLines_noNL (chContains_append_false (by decide) hcnl)] at hx
            rw [List.mem_singleton] at hx
            subst hx
            rw [strStartsWith_append_self]
            simp
          · rcases List.mem_cons.mp h with h2 | h2
            · subst h2
              intro x hx
              have := emptyLinesOk x hx
              simp [this]
            · rcases List.mem_append.mp h2 with h3 | h3
              · rcases List.mem_append.mp h3 with h4 | h4
                · have hpt : strStartsWith e "|" = true := by
                    have h5 := List.mem_takeWhile_imp h4
                    simpa using h5
                  have hoe : ItemOK e := hrest' e ((List.takeWhile_sublist _).mem h4)
                  intro x hx
                  have := pipeItem_lines_ok hoe hpt x hx
                  simp [this]
                · rw [List.mem_singleton] at h4
                  subst h4
                  intro x hx
                  have := emptyLinesOk x hx
                  simp [this]
              · refine ih _ (fun it hit => hrest' it ((List.drop_sublist _ _).mem hit)) e h3
        · rcases List.mem_cons.mp he with h | h
          · subst h
            intro x hx
            have hbnl : chContains (stripNumberMark (stripBulletMark line)) '\n' = false := by
              rw [chContains_false_iff]
              intro y hy hyn
              have h1 : y ∈ (stripBulletMark line).data :=
                stripNumberMark_chars _ y hy
              have h2 : y ∈ line.data := stripBulletMark_chars _ y h1
              exact (chContains_false_iff line '\n').mp hlnl y h2 hyn
            rw [stringLines_noNL (chContains_append_false (by decide) hbnl)] at hx
            rw [List.mem_singleton] at hx
            subst hx
            have := secLineOk_dash (stripNumberMark (stripBulletMark line))
            simp [this]
          · exact ih rest' hrest' e h

theorem buildFixAux_head (fuel : Nat) :
    ∀ rest : List String, buildFixAux fuel rest = [] ∨
      ∃ e t, buildFixAux fuel rest = e :: t ∧
        ((∃ c, e = "### " ++ c) ∨ ∃ c, e = "- " ++ c) := by
  induction fuel with
  | zero => intro rest; left; rfl
  | succ f ih =>
    intro rest
    cases rest with
    | nil => left; rfl
    | cons line rest' =>
      simp only [buildFixAux]
      split
      · exact ih rest'
      · rename_i capture hs
        split
        · right
          exact ⟨_, _, rfl, Or.inl ⟨jsTrim capture, rfl⟩⟩
        · right
          exact ⟨_, _, rfl, Or.inr ⟨stripNumberMark (stripBulletMark line), rfl⟩⟩

theorem fixOutOk_strip_ws {x w : String} (h : FixOutOk (x ++ w) = true)
    (hw : ∀ c ∈ w.data, isJsWs c = true) : FixOutOk x = true := by
  cases hxd : x.data with
  | nil =>
    have : x = "" := String.ext hxd
    subst this
    rfl
  | cons c r =>
    have hhead : (x ++ w).data = c :: (r ++ w.data) := by
      rw [strData_append, hxd]
      rfl
    unfold FixOutOk at h ⊢
    rcases Bool.or_eq_true _ _ ▸ h with h1 | h1
    · rcases Bool.or_eq_true _ _ ▸ h1 with h2 | h2
      · -- SecLineOk (x ++ w) and x nonempty: same head
        have : SecLineOk x = true := by
          unfold SecLineOk at h2 ⊢
          rw [hhead] at h2
          rw [hxd]
          exact h2
        simp [this]
      · -- startsWith "### "
        obtain ⟨rest, hrest⟩ := (strStartsWith_iff _ _).mp h2
        rw [hhead] at hrest
        have hrest' : c :: (r ++ w.data) = '#' :: '#' :: '#' :: ' ' :: rest := hrest
        obtain ⟨hc, htail⟩ := List.cons.inj hrest'
        subst hc
        rcases hr : r with _ | ⟨r1, _ | ⟨r2, _ | ⟨r3, r4⟩⟩⟩ <;> rw [hr] at htail
        · -- x.data = ['#']; w starts with '#': contradiction with ws
          simp only [List.nil_append] at htail
          have hmem : '#' ∈ w.data := by rw [htail]; simp
          have := hw '#' hmem
          simp [isJsWs] at this
        · -- x.data = ['#','#']
          simp only [List.cons_append, List.nil_append] at htail
          obtain ⟨h1', htail2⟩ := List.cons.inj htail
          have hmem : '#' ∈ w.data := by rw [htail2]; simp
          have := hw '#' hmem
          simp [isJsWs] at this
        · -- x.data = ['#','#','#'] : x = "###"
          simp only [List.cons_append, List.nil_append] at htail
          obtain ⟨h1', htail2⟩ := List.cons.inj htail
          obtain ⟨h2', _⟩ := List.cons.inj htail2
          subst h1'
          subst h2'
          have : x = "###" := String.ext (by rw [hxd, hr])
          simp [this]
        · -- x has at least 4 characters: x starts with "### "
          simp only [List.cons_append] at htail
          obtain ⟨h1', htail2⟩ := List.cons.inj htail
          obtain ⟨h2', htail3⟩ := List.cons.inj htail2
          obtain ⟨h3', _⟩ := List.cons.inj htail3
          subst h1'
          subst h2'
          subst h3'
          have : strStartsWith x "### " = true := by
            rw [strStartsWith_iff]
            refine ⟨r4, ?_⟩
            rw [hxd, hr]
            rfl
          simp [this]
    · -- x ++ w = "###": the whitespace suffix must be empty
      have hdata : (x ++ w).data = ['#', '#', '#'] := by
        rw [show (x ++ w) = "###" from by simpa using h1]
      have hwnil : w.data = [] := by
        by_contra hne
        obtain ⟨wc, hwc⟩ := List.exists_mem_of_ne_nil w.data hne
        have hmem : wc ∈ (x ++ w).data := by
          rw [strData_append]
          exact List.mem_append_right _ hwc
        rw [hdata] at hmem
        have := hw wc hwc
        rcases List.mem_cons.mp hmem with h | h
        · rw [h] at this; simp [isJsWs] at this
        · rcases List.mem_cons.mp h with h | h
          · rw [h] at this; simp [isJsWs] at this
          · rcases List.mem_cons.mp h with h | h
            · rw [h] at this; simp [isJsWs] at this
            · simp at h
      have : x = "###" := by
        apply String.ext
        have := hdata
        rw [strData_append, hwnil, List.append_nil] at this
        rw [this]
      simp [this]

theorem buildFixSection_lines_ok (items : List String) (h : ∀ it ∈ items, ItemOK it) :
    ∀ x ∈ stringLines (buildFixSection items), FixOutOk x = true := by
  intro x hx
  unfold buildFixSection at hx
  by_cases hlen : items.length = 0
  · rw [if_pos hlen] at hx
    rw [stringLines_noNL (by decide)] at hx
    rw [List.mem_singleton] at hx
    subst hx
    decide
  · rw [if_neg hlen] at hx
    have hjoin : ∀ y ∈ stringLines (joinNL (buildFixAux items.length items)),
        (SecLineOk y || strStartsWith y "### ") = true := by
      intro y hy
      rcases mem_lines_joinNL hy with h1 | ⟨e, he, hye⟩
      · subst h1
        rfl
      · exact buildFixAux_entries items.length items h e he y hye
    rcases buildFixAux_head items.length items with h0 | ⟨e0, es, hL, hform⟩
    · rw [h0] at hx
      have hz : jsTrim (joinNL ([] : List String)) = "" := rfl
      rw [hz] at hx
      rw [stringLines_noNL (by decide)] at hx
      rw [List.mem_singleton] at hx
      subst hx
      rfl
    · rw [hL] at hx hjoin
      have hheadchar : ∀ c, (joinNL (e0 :: es)).data.head? = some c → isJsWs c = false := by
          intro c hc
          have hdat : ∃ t, (joinNL (e0 :: es)).data = e0.data ++ t := by
            cases es with
            | nil => exact ⟨[], by simp [joinNL]⟩
            | cons y ys =>
              refine ⟨("\n" ++ joinNL (y :: ys)).data, ?_⟩
              rw [joinNL_cons_cons, String.append_assoc, strData_append]
          obtain ⟨t, ht⟩ := hdat
          rcases hform with ⟨c0, rfl⟩ | ⟨c0, rfl⟩
          · rw [ht, strData_append] at hc
            have : c = '#' := by
              simp only [show ("### " : String).data = ['#', '#', '#', ' '] from rfl] at hc
              exact (by simpa using hc : '#' = c).symm
            rw [this]
            rfl
          · rw [ht, strData_append] at hc
            have : c = '-' := by
              simp only [show ("- " : String).data = ['-', ' '] from rfl] at hc
              exact (by simpa using hc : '-' = c).symm
            rw [this]
            rfl
      rw [jsTrim_eq_trimEnd _ hheadchar] at hx
      obtain ⟨w, hw, hws⟩ := jsTrimEnd_decomp (joinNL (e0 :: es))
      have hlines := stringLines_append (jsTrimEnd (joinNL (e0 :: es))) w
      rw [← hw] at hlines
      set t := jsTrimEnd (joinNL (e0 :: es)) with ht
      have htne : stringLines t ≠ [] := stringLines_ne_nil t
      have hsplit := List.dropLast_append_getLast htne
      rcases hxmem : List.mem_append.mp (by rw [← hsplit] at hx; exact hx) with h1 | h1
      · -- x among all but the last line of t: it is a full line of the join
        have hxs : x ∈ stringLines (joinNL (e0 :: es)) := by
          rw [hlines]
          exact List.mem_append_left _ h1
        have := hjoin x hxs
        unfold FixOutOk
        rcases Bool.or_eq_true _ _ ▸ this with h2 | h2 <;> simp [h2]
      · -- x is the last line of t; appending white space recovers a join line
        rw [List.mem_singleton] at h1
        have hlast : (stringLines t).getLastD "" = x := by
          rw [List.getLastD_eq_getLast?, List.getLast?_eq_getLast _ htne, h1]
          rfl
        have hmid : x ++ (stringLines w).headD "" ∈ stringLines (joinNL (e0 :: es)) := by
          rw [hlines, ← hlast]
          exact List.mem_append_right _ (by simp)
        have hok : FixOutOk (x ++ (stringLines w).headD "") = true := by
          have h3 := hjoin _ hmid
          unfold FixOutOk
          rcases Bool.or_eq_true _ _ ▸ h3 with h2 | h2
          · rw [h2]
            rfl
          · rw [h2, Bool.or_true]
            rfl
        refine fixOutOk_strip_ws hok ?_
        intro c hc
        refine hws c ?_
        have hmemw : (stringLines w).headD "" ∈ stringLines w := by
          obtain ⟨h0, t0, hw0⟩ := charLines_exists_cons w.data
          simp [stringLines, hw0]
        exact lines_chars_sub w _ hmemw c hc

/-! ## Newline-freedom of split lines and of the preprocessing output -/

theorem charLines_mem_noNL : ∀ l : List Char, ∀ x ∈ charLines l, '\n' ∉ x := by
  intro l
  induction l with
  | nil =>
    intro x hx
    simp only [charLines, List.mem_singleton] at hx
    subst hx
    simp
  | cons c r ih =>
    intro x hx
    rw [charLines_cons] at hx
    by_cases hc : c = '\n'
    · rw [if_pos hc] at hx
      rcases List.mem_cons.mp hx with h | h
      · subst h; simp
      · exact ih x h
    · rw [if_neg hc] at hx
      obtain ⟨h0, t0, hr⟩ := charLines_exists_cons r
      rw [hr] at hx
      rcases List.mem_cons.mp hx with h | h
      · subst h
        intro hmem
        rcases List.mem_cons.mp hmem with h1 | h1
        · exact hc h1.symm
        · exact ih h0 (by rw [hr]; simp) h1
      · exact ih x (by rw [hr]; simp [h])

theorem stringLines_mem_noNL (s : String) :
    ∀ x ∈ stringLines s, chContains x '\n' = false := by
  intro x hx
  simp only [stringLines, List.mem_map] at hx
  obtain ⟨l, hl, rfl⟩ := hx
  rw [chContains_false_iff]
  intro y hy hyn
  subst hyn
  exact charLines_mem_noNL s.data l hl hy

theorem mkSectionMarker_noNL (k : SectionKey) : chContains (mkSectionMarker k) '\n' = false := by
  cases k <;> decide

theorem preprocessLinesAux_noNL :
    ∀ (fuel : Nat) (lines : List String), (∀ l ∈ lines, chContains l '\n' = false) →
      ∀ l ∈ preprocessLinesAux fuel lines, chContains l '\n' = false := by
  intro fuel
  induction fuel with
  | zero => intro lines h l hl; exact h l hl
  | succ f ih =>
    intro lines h l hl
    cases lines with
    | nil => simp [preprocessLinesAux] at hl
    | cons x rest =>
      have hx := h x (by simp)
      have hrest : ∀ l ∈ rest, chContains l '\n' = false := fun l hl => h l (by simp [hl])
      simp only [preprocessLinesAux] at hl
      split at hl
      · rcases List.mem_cons.mp hl with h1 | h1
        · subst h1; exact hx
        · exact ih rest hrest l h1
      · split at hl
        · rename_i k hk
          rcases List.mem_cons.mp hl with h1 | h1
          · subst h1; exact mkSectionMarker_noNL k
          · exact ih rest hrest l h1
        · split at hl
          · rcases List.mem_cons.mp hl with h1 | h1
            · subst h1; decide
            · rcases List.mem_append.mp h1 with h2 | h2
              · rcases List.mem_cons.mp h2 with h3 | h3
                · subst h3; exact chContains_jsTrim_false hx
                · obtain ⟨y, hy, rfl⟩ := List.mem_map.mp h3
                  exact chContains_jsTrim_false (hrest y ((List.takeWhile_sublist _).mem hy))
              · rcases List.mem_cons.mp h2 with h3 | h3
                · subst h3; decide
                · exact ih _ (fun z hz => hrest z ((List.drop_sublist _ _).mem hz)) l h3
          · rcases List.mem_cons.mp hl with h1 | h1
            · subst h1; exact hx
            · exact ih rest hrest l h1

/-! ## The rendered table is table-shaped -/

theorem joinSep_aux (sep : String) (L : List String) (a b : String) :
    List.foldl (fun acc z => acc ++ sep ++ z) (a ++ b) L =
      a ++ List.foldl (fun acc z => acc ++ sep ++ z) b L := by
  induction L generalizing b with
  | nil => rfl
  | cons z zs ih =>
    rw [List.foldl_cons, List.foldl_cons]
    have h1 : a ++ b ++ sep ++ z = a ++ (b ++ sep ++ z) := by
      simp [String.append_assoc]
    rw [h1]
    exact ih (b ++ sep ++ z)

theorem joinSep_cons_cons (sep x y : String) (ys : List String) :
    joinSep sep (x :: y :: ys) = x ++ sep ++ joinSep sep (y :: ys) :=
  joinSep_aux sep ys (x ++ sep) y

theorem mem_joinSep_sub (sep : String) :
    ∀ L : List String, ∀ c ∈ (joinSep sep L).data,
      c ∈ sep.data ∨ ∃ x ∈ L, c ∈ x.data := by
  intro L
  induction L with
  | nil => intro c hc; simp [joinSep] at hc
  | cons x ys ih =>
    cases ys with
    | nil =>
      intro c hc
      exact Or.inr ⟨x, by simp, hc⟩
    | cons y ys' =>
      intro c hc
      rw [joinSep_cons_cons, strData_append, strData_append] at hc
      rcases List.mem_append.mp hc with h1 | h1
      · rcases List.mem_append.mp h1 with h2 | h2
        · exact Or.inr ⟨x, by simp, h2⟩
        · exact Or.inl h2
      · rcases ih c h1 with h2 | ⟨z, hz, hcz⟩
        · exact Or.inl h2
        · exact Or.inr ⟨z, by simp [hz], hcz⟩

theorem mkPipeRow_startsWith (cells : List String) :
    strStartsWith (mkPipeRow cells) "|" = true := by
  have h : mkPipeRow cells = "|" ++ (" " ++ joinSep " | " cells ++ " |") := rfl
  rw [h]
  exact strStartsWith_append_self "|" _

theorem mkPipeRow_noNL {cells : List String} (h : ∀ x ∈ cells, chContains x '\n' = false) :
    chContains (mkPipeRow cells) '\n' = false := by
  rw [chContains_false_iff]
  intro c hc hcn
  subst hcn
  unfold mkPipeRow at hc
  rw [strData_append, strData_append] at hc
  rcases List.mem_append.mp hc with h1 | h1
  · rcases List.mem_append.mp h1 with h2 | h2
    · exact absurd h2 (by decide)
    · rcases mem_joinSep_sub " | " cells '\n' h2 with h3 | ⟨x, hx, hcx⟩
      · exact absurd h3 (by decide)
      · exact ((chContains_false_iff x '\n').mp (h x hx)) '\n' hcx rfl
  · exact absurd h1 (by decide)

theorem rowCells_chars (l : String) : ∀ cell ∈ rowCells l, ∀ c ∈ cell.data, c ∈ l.data := by
  intro cell hcell c hc
  unfold rowCells at hcell
  split at hcell
  · obtain ⟨v, hv, rfl⟩ := List.mem_map.mp hcell
    have hv' : v ∈ splitCharAux '\t' [] l.data := hv
    have h1 : c ∈ v.data := mem_jsTrim_sub v c hc
    rcases splitCharAux_chars '\t' l.data [] v hv' c h1 with h | h
    · simp at h
    · exact h
  · obtain ⟨v, hv, rfl⟩ := List.mem_map.mp hcell
    have hv' : v ∈ splitWsRunsAux l.data.length [] l.data := hv
    have h1 : c ∈ v.data := mem_jsTrim_sub v c hc
    rcases splitWsRunsAux_chars l.data.length l.data [] v hv' c h1 with h | h
    · simp at h
    · exact h

theorem padRow_mem {m : Nat} {r : List String} :
    ∀ x ∈ padRow m r, x ∈ r ∨ x = "" := by
  intro x hx
  unfold padRow at hx
  rcases List.mem_append.mp ((List.take_subset _ _) hx) with h | h
  · exact Or.inl h
  · exact Or.inr (List.eq_of_mem_replicate h)

theorem joinNL_data_cons (y : String) (ys : List String) :
    ∃ t, (joinNL (y :: ys)).data = y.data ++ t := by
  cases ys with
  | nil => exact ⟨[], by simp [joinNL]⟩
  | cons z zs =>
    refine ⟨'\n' :: (joinNL (z :: zs)).data, ?_⟩
    rw [joinNL_cons_cons]
    simp [strData_append]

theorem noNL_chars {x : String} (h : chContains x '\n' = false) : ∀ c ∈ x.data, c ≠ '\n' :=
  (chContains_false_iff x '\n').mp h

theorem afterNLOk_joinNL (good : Char → Bool) :
    ∀ rows : List String,
      (∀ r ∈ rows, ∃ c r', r.data = c :: r' ∧ good c = true) →
      (∀ r ∈ rows, chContains r '\n' = false) →
      afterNLOk good (joinNL rows).data = true := by
  intro rows
  induction rows with
  | nil => intro _ _; rfl
  | cons x ys ih =>
    intro hhd hnl
    cases ys with
    | nil => exact afterNLOk_of_noNL good x.data (noNL_chars (hnl x (by simp)))
    | cons y ys' =>
      rw [joinNL_cons_cons]
      have hdata : (x ++ "\n" ++ joinNL (y :: ys')).data =
          (x.data ++ ['\n']) ++ (joinNL (y :: ys')).data := by
        simp [strData_append]
      rw [hdata]
      have hxnl : ∀ c ∈ x.data, c ≠ '\n' := noNL_chars (hnl x (by simp))
      have ha : afterNLOk good (x.data ++ ['\n']) = true := by
        refine afterNLOk_append good x.data ['\n'] (afterNLOk_of_noNL good x.data hxnl) rfl ?_
        intro hlast
        exact absurd rfl (hxnl '\n' (List.mem_of_mem_getLast? hlast))
      refine afterNLOk_append good (x.data ++ ['\n']) (joinNL (y :: ys')).data ha
        (ih (fun r hr => hhd r (by simp [hr])) (fun r hr => hnl r (by simp [hr]))) ?_
      intro _ c hc
      obtain ⟨c0, r0, hy0, hg0⟩ := hhd y (by simp)
      obtain ⟨t, ht⟩ := joinNL_data_cons y ys'
      rw [ht, hy0] at hc
      have : c = c0 := (by simpa using hc : c0 = c).symm
      rw [this]
      exact hg0

theorem joinNL_pipe_tableShaped {rows : List String} (hne : rows ≠ [])
    (hpipe : ∀ r ∈ rows, strStartsWith r "|" = true)
    (hnl : ∀ r ∈ rows, chContains r '\n' = false) :
    TableShaped (joinNL rows) := by
  constructor
  · intro x hx
    rw [stringLines_joinNL rows hne] at hx
    unfold linesOfAll at hx
    obtain ⟨ls, hls, hxls⟩ := List.mem_flatten.mp hx
    obtain ⟨r, hr, rfl⟩ := List.mem_map.mp hls
    rw [stringLines_noNL (hnl r hr), List.mem_singleton] at hxls
    rw [hxls]
    exact hpipe r hr
  · refine afterNLOk_joinNL pipeChar rows ?_ hnl
    intro r hr
    obtain ⟨rest, hrest⟩ := (strStartsWith_iff r "|").mp (hpipe r hr)
    exact ⟨'|', rest, hrest, rfl⟩

theorem linesToMarkdownTable_tableShaped {tl : List String} (hne : tl ≠ [])
    (h : ∀ t ∈ tl, chContains t '\n' = false) :
    TableShaped (linesToMarkdownTable tl) := by
  cases tl with
  | nil => exact absurd rfl hne
  | cons l0 ls =>
    have hcellnl : ∀ l ∈ l0 :: ls, ∀ cell ∈ rowCells l, chContains cell '\n' = false := by
      intro l hl cell hcell
      rw [chContains_false_iff]
      intro c hc hcn
      subst hcn
      exact ((chContains_false_iff l '\n').mp (h l hl)) '\n'
        (rowCells_chars l cell hcell '\n' hc) rfl
    apply joinNL_pipe_tableShaped
    · simp
    · intro r hr
      rcases List.mem_cons.mp hr with h1 | h1
      · subst h1; exact mkPipeRow_startsWith _
      · rcases List.mem_cons.mp h1 with h2 | h2
        · subst h2; exact mkPipeRow_startsWith _
        · obtain ⟨row, hrow, rfl⟩ := List.mem_map.mp h2
          exact mkPipeRow_startsWith _
    · intro r hr
      rcases List.mem_cons.mp hr with h1 | h1
      · subst h1
        refine mkPipeRow_noNL ?_
        intro x hx
        rcases padRow_mem x hx with h2 | h2
        · exact hcellnl l0 (by simp) x h2
        · subst h2; decide
      · rcases List.mem_cons.mp h1 with h2 | h2
        · subst h2
          refine mkPipeRow_noNL ?_
          intro x hx
          obtain ⟨_, _, rfl⟩ := List.mem_map.mp hx
          decide
        · obtain ⟨row, hrow, rfl⟩ := List.mem_map.mp h2
          obtain ⟨row0, hrow0, rfl⟩ := List.mem_map.mp hrow
          refine mkPipeRow_noNL ?_
          intro x hx
          rcases padRow_mem x hx with h3 | h3
          · obtain ⟨l1, hl1, rfl⟩ := List.mem_map.mp hrow0

            exact hcellnl l1 (by simp [hl1]) x h3
          · subst h3; decide

/-! ## The parse loop only stores well-shaped items -/

theorem sectionsOK_push {p : ParsedSections} {k : SectionKey} {it : String}
    (hp : SectionsOK p) (hit : ItemOK it) : SectionsOK (p.push k it) := by
  obtain ⟨h1, h2, h3, h4, h5, h6, h7, h8⟩ := hp
  have hext : ∀ (L : List String), (∀ x ∈ L, ItemOK x) → ∀ x ∈ L ++ [it], ItemOK x := by
    intro L hL x hx
    rcases List.mem_append.mp hx with h | h
    · exact hL x h
    · rw [List.mem_singleton] at h; subst h; exact hit
  cases k
  · exact ⟨hext _ h1, h2, h3, h4, h5, h6, h7, h8⟩
  · exact ⟨h1, hext _ h2, h3, h4, h5, h6, h7, h8⟩
  · exact ⟨h1, h2, hext _ h3, h4, h5, h6, h7, h8⟩
  · exact ⟨h1, h2, h3, hext _ h4, h5, h6, h7, h8⟩
  · exact ⟨h1, h2, h3, h4, hext _ h5, h6, h7, h8⟩
  · exact ⟨h1, h2, h3, h4, h5, hext _ h6, h7, h8⟩
  · exact ⟨h1, h2, h3, h4, h5, h6, hext _ h7, h8⟩
  · exact ⟨h1, h2, h3, h4, h5, h6, h7, hext _ h8⟩


theorem parseStep_ok {s : PState} {line : String} (hs : StateOK s)
    (hl : chContains line '\n' = false) : StateOK (parseStep s line) := by
  obtain ⟨hsec, htab⟩ := hs
  simp only [parseStep]
  split
  · exact ⟨hsec, htab⟩
  · split
    · exact ⟨hsec, fun t ht => absurd ht (List.not_mem_nil t)⟩
    · split
      · split
        · rename_i k hk
          split
          · rename_i hlen
            refine ⟨sectionsOK_push hsec (Or.inr (linesToMarkdownTable_tableShaped ?_ htab)),
              htab⟩
            intro hnil
            rw [hnil] at hlen
            simp at hlen
          · exact ⟨hsec, htab⟩
        · exact ⟨hsec, htab⟩
      · split
        · split
          · refine ⟨hsec, ?_⟩
            intro t ht
            rcases List.mem_append.mp ht with h | h
            · exact htab t h
            · rw [List.mem_singleton] at h
              subst h
              exact chContains_jsTrim_false hl
          · exact ⟨hsec, htab⟩
        · split
          · split
            · exact ⟨sectionsOK_push hsec (Or.inl (chContains_jsTrim_false hl)), htab⟩
            · exact ⟨hsec, htab⟩
          · exact ⟨hsec, htab⟩

theorem foldl_parseStep_ok (lines : List String)
    (h : ∀ l ∈ lines, chContains l '\n' = false) :
    ∀ s : PState, StateOK s → StateOK (lines.foldl parseStep s) := by
  induction lines with
  | nil => intro s hs; exact hs
  | cons x xs ih =>
    intro s hs
    rw [List.foldl_cons]
    exact ih (fun l hl => h l (by simp [hl])) _ (parseStep_ok hs (h x (by simp)))

theorem initPState_ok : StateOK initPState := by
  refine ⟨⟨?_, ?_, ?_, ?_, ?_, ?_, ?_, ?_⟩, ?_⟩ <;>
    exact fun x hx => absurd hx (List.not_mem_nil x)

theorem parseMarkedLines_ok (lines : List String)
    (h : ∀ l ∈ lines, chContains l '\n' = false) : SectionsOK (parseMarkedLines lines) :=
  (foldl_parseStep_ok lines h initPState initPState_ok).1

theorem parseIncidentLines_ok (lines : List String)
    (h : ∀ l ∈ lines, chContains l '\n' = false) : SectionsOK (parseIncidentLines lines) :=
  parseMarkedLines_ok _ (preprocessLinesAux_noNL lines.length lines h)

theorem parseIncidentText_ok (raw : String) : SectionsOK (parseIncidentText raw) :=
  parseIncidentLines_ok _ (stringLines_mem_noNL raw)

/-! ## Lines of the generated body -/

/-- The markdown body as an explicit join of line blocks. -/
theorem buildBody_eq_joinNL (p : ParsedSections) :
    buildBody p = joinNL
      ["", "## Issue", "", buildSection p.issue,
       "", "## Impact", "", buildSection p.impact,
       "", "## Root Cause", "", buildSection p.rootCause,
       "", "## Fix", "", buildFixSection p.fix,
       "", "## Validation", "", buildSection p.validation,
       "", "## Lessons Learned", "", buildSection p.lessonsLearned,
       "", "## Prevention", "",
       (if p.prevention.length > 0 then buildSection p.prevention
        else "(No prevention steps captured.)"),
       "",
       (if p.finalNote.length > 0 then "## Final Note\n\n" ++ buildSection p.finalNote
        else ""),
       ""] := by
  unfold buildBody joinNL
  simp only [List.foldl_cons, List.foldl_nil, String.append_assoc]
  rfl

theorem buildBody_lines (p : ParsedSections) :
    stringLines (buildBody p) =
      ["", "## Issue", ""] ++ stringLines (buildSection p.issue) ++
      ["", "## Impact", ""] ++ stringLines (buildSection p.impact) ++
      ["", "## Root Cause", ""] ++ stringLines (buildSection p.rootCause) ++
      ["", "## Fix", ""] ++ stringLines (buildFixSection p.fix) ++
      ["", "## Validation", ""] ++ stringLines (buildSection p.validation) ++
      ["", "## Lessons Learned", ""] ++ stringLines (buildSection p.lessonsLearned) ++
      ["", "## Prevention", ""] ++
      stringLines (if p.prevention.length > 0 then buildSection p.prevention
        else "(No prevention steps captured.)") ++
      [""] ++
      stringLines (if p.finalNote.length > 0 then
        "## Final Note\n\n" ++ buildSection p.finalNote else "") ++
      [""] := by
  rw [buildBody_eq_joinNL, stringLines_joinNL _ (by simp)]
  unfold linesOfAll
  have he : stringLines "" = [""] := rfl
  have h1 : stringLines "## Issue" = ["## Issue"] := rfl
  have h2 : stringLines "## Impact" = ["## Impact"] := rfl
  have h3 : stringLines "## Root Cause" = ["## Root Cause"] := rfl
  have h4 : stringLines "## Fix" = ["## Fix"] := rfl
  have h5 : stringLines "## Validation" = ["## Validation"] := rfl
  have h6 : stringLines "## Lessons Learned" = ["## Lessons Learned"] := rfl
  have h7 : stringLines "## Prevention" = ["## Prevention"] := rfl
  simp only [List.map_cons, List.map_nil, List.flatten_cons, List.flatten_nil,
    he, h1, h2, h3, h4, h5, h6, h7, List.append_assoc, List.cons_append, List.nil_append,
    List.append_nil]


theorem bodyHeadings_not_secLineOk : ∀ l ∈ bodyHeadings, SecLineOk l = false := by decide

theorem bodyHeadings_not_fixOutOk : ∀ l ∈ bodyHeadings, FixOutOk l = false := by decide

theorem secLine_heading_filter {l : String} (h : SecLineOk l = true) :
    decide (l ∈ bodyHeadings) = false := by
  by_contra hc
  have hmem : l ∈ bodyHeadings := of_decide_eq_true (eq_true_of_ne_false hc)
  rw [bodyHeadings_not_secLineOk l hmem] at h
  exact Bool.false_ne_true h

theorem fixLine_heading_filter {l : String} (h : FixOutOk l = true) :
    decide (l ∈ bodyHeadings) = false := by
  by_contra hc
  have hmem : l ∈ bodyHeadings := of_decide_eq_true (eq_true_of_ne_false hc)
  rw [bodyHeadings_not_fixOutOk l hmem] at h
  exact Bool.false_ne_true h

theorem buildSection_heading_filter {items : List String} (h : ∀ it ∈ items, ItemOK it) :
    (stringLines (buildSection items)).filter (fun l => decide (l ∈ bodyHeadings)) = [] := by
  rw [List.filter_eq_nil_iff]
  intro x hx
  have hok := buildSection_lines_ok items h x hx
  simp [secLine_heading_filter hok]

theorem buildFixSection_heading_filter {items : List String} (h : ∀ it ∈ items, ItemOK it) :
    (stringLines (buildFixSection items)).filter (fun l => decide (l ∈ bodyHeadings)) = [] := by
  rw [List.filter_eq_nil_iff]
  intro x hx
  have hok := buildFixSection_lines_ok items h x hx
  simp [fixLine_heading_filter hok]

theorem body_heading_lines {p : ParsedSections} (hp : SectionsOK p) :
    (stringLines (buildBody p)).filter (fun l => decide (l ∈ bodyHeadings)) =
      ["## Issue", "## Impact", "## Root Cause", "## Fix", "## Validation",
       "## Lessons Learned", "## Prevention"] ++
        (if p.finalNote.length > 0 then ["## Final Note"] else []) := by
  obtain ⟨o1, o2, o3, o4, o5, o6, o7, o8⟩ := hp
  rw [buildBody_lines]
  simp only [List.filter_append]
  rw [buildSection_heading_filter o1, buildSection_heading_filter o2,
    buildSection_heading_filter o3, buildFixSection_heading_filter o4,
    buildSection_heading_filter o5, buildSection_heading_filter o6]
  have hprev : (stringLines (if p.prevention.length > 0 then buildSection p.prevention
      else "(No prevention steps captured.)")).filter
        (fun l => decide (l ∈ bodyHeadings)) = [] := by
    by_cases hlen : p.prevention.length > 0
    · rw [if_pos hlen]
      exact buildSection_heading_filter o7
    · rw [if_neg hlen]
      decide
  have hfn : (stringLines (if p.finalNote.length > 0 then
      "## Final Note\n\n" ++ buildSection p.finalNote else "")).filter
        (fun l => decide (l ∈ bodyHeadings)) =
      (if p.finalNote.length > 0 then ["## Final Note"] else []) := by
    by_cases hlen : p.finalNote.length > 0
    · rw [if_pos hlen, if_pos hlen]
      have hform : ("## Final Note\n\n" ++ buildSection p.finalNote : String) =
          "## Final Note" ++ "\n" ++ ("" ++ "\n" ++ buildSection p.finalNote) := rfl
      rw [hform, stringLines_append_nl, stringLines_append_nl]
      simp only [List.filter_append]
      rw [buildSection_heading_filter o8]
      decide
    · rw [if_neg hlen, if_neg hlen]
      decide
  rw [hprev, hfn]
  have f0 : List.filter (fun l => decide (l ∈ bodyHeadings)) [""] = [] := by decide
  have fI : List.filter (fun l => decide (l ∈ bodyHeadings)) ["", "## Issue", ""] =
      ["## Issue"] := by decide
  have fM : List.filter (fun l => decide (l ∈ bodyHeadings)) ["", "## Impact", ""] =
      ["## Impact"] := by decide
  have fR : List.filter (fun l => decide (l ∈ bodyHeadings)) ["", "## Root Cause", ""] =
      ["## Root Cause"] := by decide
  have fF : List.filter (fun l => decide (l ∈ bodyHeadings)) ["", "## Fix", ""] =
      ["## Fix"] := by decide
  have fV : List.filter (fun l => decide (l ∈ bodyHeadings)) ["", "## Validation", ""] =
      ["## Validation"] := by decide
  have fL : List.filter (fun l => decide (l ∈ bodyHeadings)) ["", "## Lessons Learned", ""] =
      ["## Lessons Learned"] := by decide
  have fP : List.filter (fun l => decide (l ∈ bodyHeadings)) ["", "## Prevention", ""] =
      ["## Prevention"] := by decide
  rw [f0, fI, fM, fR, fF, fV, fL, fP]
  simp

/-! ## Shapes of all body lines -/

theorem buildBody_line_shapes {p : ParsedSections} (hp : SectionsOK p) :
    ∀ x ∈ stringLines (buildBody p),
      x = "" ∨ x ∈ bodyHeadings ∨ SecLineOk x = true ∨
        strStartsWith x "### " = true ∨ x = "###" := by
  obtain ⟨o1, o2, o3, o4, o5, o6, o7, o8⟩ := hp
  have hsec : ∀ (items : List String), (∀ it ∈ items, ItemOK it) →
      ∀ x ∈ stringLines (buildSection items),
        x = "" ∨ x ∈ bodyHeadings ∨ SecLineOk x = true ∨
          strStartsWith x "### " = true ∨ x = "###" := by
    intro items h x hx
    exact Or.inr (Or.inr (Or.inl (buildSection_lines_ok items h x hx)))
  have hfix : ∀ x ∈ stringLines (buildFixSection p.fix),
      x = "" ∨ x ∈ bodyHeadings ∨ SecLineOk x = true ∨
        strStartsWith x "### " = true ∨ x = "###" := by
    intro x hx
    have h := buildFixSection_lines_ok p.fix o4 x hx
    unfold FixOutOk at h
    rcases Bool.or_eq_true _ _ ▸ h with h1 | h1
    · rcases Bool.or_eq_true _ _ ▸ h1 with h2 | h2
      · exact Or.inr (Or.inr (Or.inl h2))
      · exact Or.inr (Or.inr (Or.inr (Or.inl h2)))
    · exact Or.inr (Or.inr (Or.inr (Or.inr (by simpa using h1))))
  rw [buildBody_lines]
  intro x hx
  simp only [List.mem_append, or_assoc] at hx
  rcases hx with h | h | h | h | h | h | h | h | h | h | h | h | h | h | h | h | h
  · fin_cases h <;> decide
  · exact hsec _ o1 x h
  · fin_cases h <;> decide
  · exact hsec _ o2 x h
  · fin_cases h <;> decide
  · exact hsec _ o3 x h
  · fin_cases h <;> decide
  · exact hfix x h
  · fin_cases h <;> decide
  · exact hsec _ o5 x h
  · fin_cases h <;> decide
  · exact hsec _ o6 x h
  · fin_cases h <;> decide
  · by_cases hlen : p.prevention.length > 0
    · rw [if_pos hlen] at h
      exact hsec _ o7 x h
    · rw [if_neg hlen] at h
      rw [stringLines_noNL (by decide), List.mem_singleton] at h
      subst h
      decide
  · fin_cases h <;> decide
  · by_cases hlen : p.finalNote.length > 0
    · rw [if_pos hlen] at h
      have hform : ("## Final Note\n\n" ++ buildSection p.finalNote : String) =
          "## Final Note" ++ "\n" ++ ("" ++ "\n" ++ buildSection p.finalNote) := rfl
      rw [hform, stringLines_append_nl, stringLines_append_nl] at h
      rcases List.mem_append.mp h with h1 | h1
      · rw [show stringLines "## Final Note" = ["## Final Note"] from rfl,
          List.mem_singleton] at h1
        subst h1
        decide
      · rcases List.mem_append.mp h1 with h2 | h2
        · rw [show stringLines "" = [""] from rfl, List.mem_singleton] at h2
          subst h2
          decide
        · exact hsec _ o8 x h2
    · rw [if_neg hlen] at h
      rw [show stringLines "" = [""] from rfl, List.mem_singleton] at h
      subst h
      decide
  · fin_cases h <;> decide

/-! ## Heads of the generated front-matter lines -/


theorem afterNLOk_mono {good good' : Char → Bool} (h : ∀ c, good c = true → good' c = true) :
    ∀ l, afterNLOk good l = true → afterNLOk good' l = true := by
  intro l
  induction l with
  | nil => intro _; rfl
  | cons a r ih =>
    cases r with
    | nil => intro _; rfl
    | cons b r' =>
      intro hl
      have hl' : ((if a = '\n' then good b else true) && afterNLOk good (b :: r')) = true := hl
      show ((if a = '\n' then good' b else true) && afterNLOk good' (b :: r')) = true
      have h1 := Bool.and_elim_left hl'
      have h2 := Bool.and_elim_right hl'
      rw [ih h2, Bool.and_true]
      by_cases ha : a = '\n'
      · rw [if_pos ha]
        rw [if_pos ha] at h1
        exact h b h1
      · rw [if_neg ha]

theorem afterNLOk_dropWhile (good : Char → Bool) (p : Char → Bool) (l : List Char)
    (h : afterNLOk good l = true) : afterNLOk good (l.dropWhile p) = true := by
  rw [dropWhile_eq_drop]
  exact afterNLOk_drop good l h _

theorem afterNLOk_trimRight (good : Char → Bool) (l : List Char)
    (h : afterNLOk good l = true) : afterNLOk good (trimRightChars l) = true := by
  rw [trimRightChars_eq_take]
  exact afterNLOk_take good l h _

theorem afterNLOk_jsTrim (good : Char → Bool) (s : String)
    (h : afterNLOk good s.data = true) : afterNLOk good (jsTrim s).data = true := by
  show afterNLOk good (trimRightChars (trimLeftChars s.data)) = true
  exact afterNLOk_trimRight good _ (afterNLOk_dropWhile good _ _ h)

theorem afterNLOk_strTake (good : Char → Bool) (n : Nat) (s : String)
    (h : afterNLOk good s.data = true) : afterNLOk good (strTake n s).data = true :=
  afterNLOk_take good s.data h n

theorem afterNLOk_splitAny_piece (good : Char → Bool) (sep : List Char) (s : String)
    (h : afterNLOk good s.data = true) :
    ∀ p ∈ splitAnyChar sep s, afterNLOk good p.data = true := by
  intro p hp
  obtain ⟨i, n, hpn⟩ := splitAnyCharAux_slices sep s.data [] p hp
  rw [hpn]
  simp only [List.reverse_nil, List.nil_append]
  exact afterNLOk_take good _ (afterNLOk_drop good _ h i) n

theorem afterNLOk_headD (good : Char → Bool) (L : List String) (d : String)
    (hd : afterNLOk good d.data = true)
    (h : ∀ p ∈ L, afterNLOk good p.data = true) : afterNLOk good (L.headD d).data = true := by
  cases L with
  | nil => exact hd
  | cons a as => exact h a (by simp)

theorem afterNLOk_joinSep (good : Char → Bool) (sep : String)
    (hsepnl : chContains sep '\n' = false)
    (hsephd : ∀ c, sep.data.head? = some c → good c = true)
    (hsepne : sep.data ≠ []) :
    ∀ items : List String, (∀ it ∈ items, afterNLOk good it.data = true) →
      afterNLOk good (joinSep sep items).data = true := by
  intro items
  induction items with
  | nil => intro _; rfl
  | cons x ys ih =>
    intro h
    cases ys with
    | nil => exact h x (by simp)
    | cons y ys' =>
      rw [joinSep_cons_cons]
      have hdata : (x ++ sep ++ joinSep sep (y :: ys')).data =
          x.data ++ (sep.data ++ (joinSep sep (y :: ys')).data) := by
        simp [strData_append]
      rw [hdata]
      have hsepws : ∀ c ∈ sep.data, c ≠ '\n' := noNL_chars hsepnl
      have hb : afterNLOk good (sep.data ++ (joinSep sep (y :: ys')).data) = true := by
        refine afterNLOk_append good sep.data _ (afterNLOk_of_noNL good sep.data hsepws)
          (ih (fun it hit => h it (by simp [hit]))) ?_
        intro hlast
        exact absurd rfl (hsepws '\n' (List.mem_of_mem_getLast? hlast))
      refine afterNLOk_append good x.data _ (h x (by simp)) hb ?_
      intro _ c hc
      cases hsd : sep.data with
      | nil => exact absurd hsd hsepne
      | cons c1 r1 =>
        rw [hsd, List.cons_append] at hc
        have h3 : c1 = c := Option.some.inj hc
        rw [← h3]
        exact hsephd c1 (by rw [hsd]; rfl)

/-! ## The extracted tags are drawn from the rule table -/

theorem mem_addTag {acc : List String} {t x : String} (h : x ∈ addTag acc t) :
    x ∈ acc ∨ x = t := by
  unfold addTag at h
  split at h
  · exact Or.inl h
  · rcases List.mem_append.mp h with h1 | h1
    · exact Or.inl h1
    · exact Or.inr (by simpa using h1)

theorem mem_foldl_addTag : ∀ (L acc : List String) (x : String),
    x ∈ L.foldl addTag acc → x ∈ acc ∨ x ∈ L := by
  intro L
  induction L with
  | nil => intro acc x h; exact Or.inl h
  | cons t ts ih =>
    intro acc x h
    rw [List.foldl_cons] at h
    rcases ih (addTag acc t) x h with h1 | h1
    · rcases mem_addTag h1 with h2 | h2
      · exact Or.inl h2
      · exact Or.inr (by simp [h2])
    · exact Or.inr (by simp [h1])

theorem mem_rules_foldl (lt : String) : ∀ (rules : List (List String × List String))
    (acc : List String) (x : String),
    x ∈ rules.foldl (fun acc rule =>
      match rule.1.find? (fun kw => hasSub lt (jsToLower kw)) with
      | some _ => rule.2.foldl addTag acc
      | none => acc) acc →
    x ∈ acc ∨ ∃ r ∈ rules, x ∈ r.2 := by
  intro rules
  induction rules with
  | nil => intro acc x h; exact Or.inl h
  | cons r rs ih =>
    intro acc x h
    rw [List.foldl_cons] at h
    rcases ih _ x h with h1 | ⟨r', hr', hx⟩
    · split at h1
      · rcases mem_foldl_addTag _ _ _ h1 with h2 | h2
        · exact Or.inl h2
        · exact Or.inr ⟨r, by simp, h2⟩
      · exact Or.inl h1
    · exact Or.inr ⟨r', by simp [hr'], hx⟩

theorem mem_insertSortedTag {t x : String} : ∀ {l : List String},
    x ∈ insertSortedTag t l → x = t ∨ x ∈ l := by
  intro l
  induction l with
  | nil =>
    intro h
    have h2 : x ∈ [t] := h
    exact Or.inl (by simpa using h2)
  | cons y ys ih =>
    intro h
    unfold insertSortedTag at h
    split at h
    · rcases List.mem_cons.mp h with h1 | h1
      · exact Or.inr (by simp [h1])
      · rcases ih h1 with h2 | h2
        · exact Or.inl h2
        · exact Or.inr (by simp [h2])
    · rcases List.mem_cons.mp h with h1 | h1
      · exact Or.inl h1
      · rcases List.mem_cons.mp h1 with h2 | h2
        · exact Or.inr (by simp [h2])
        · exact Or.inr (by simp [h2])

theorem mem_foldl_insert : ∀ (L acc : List String) (x : String),
    x ∈ L.foldl (fun acc y => insertSortedTag y acc) acc → x ∈ acc ∨ x ∈ L := by
  intro L
  induction L with
  | nil => intro acc x h; exact Or.inl h
  | cons y ys ih =>
    intro acc x h
    rw [List.foldl_cons] at h
    rcases ih _ x h with h1 | h1
    · rcases mem_insertSortedTag h1 with h2 | h2
      · exact Or.inr (by simp [h2])
      · exact Or.inl h2
    · exact Or.inr (by simp [h1])

theorem tagRules_out_noNL : ∀ r ∈ tagRules, ∀ t ∈ r.2, chContains t '\n' = false := by decide

theorem extractTags_noNL (s : String) : ∀ t ∈ extractTags s, chContains t '\n' = false := by
  intro t ht
  simp only [extractTags] at ht
  split at ht
  · split at ht
    · rcases mem_foldl_insert _ [] t ht with h1 | h1
      · simp at h1
      · rcases mem_addTag h1 with h2 | h2
        · rcases mem_rules_foldl (jsToLower s) tagRules [] t h2 with h3 | ⟨r, hr, hx⟩
          · simp at h3
          · exact tagRules_out_noNL r hr t hx
        · subst h2; decide
    · rcases List.mem_cons.mp ht with h1 | h1
      · subst h1; decide
      · rw [List.mem_singleton] at h1; subst h1; decide
  · split at ht
    · rcases mem_foldl_insert _ [] t ht with h1 | h1
      · simp at h1
      · rcases mem_rules_foldl (jsToLower s) tagRules [] t h1 with h3 | ⟨r, hr, hx⟩
        · simp at h3
        · exact tagRules_out_noNL r hr t hx
    · rcases List.mem_cons.mp ht with h1 | h1
      · subst h1; decide
      · rw [List.mem_singleton] at h1; subst h1; decide

theorem joinSep_noNL {sep : String} {L : List String} (hsep : chContains sep '\n' = false)
    (h : ∀ x ∈ L, chContains x '\n' = false) : chContains (joinSep sep L) '\n' = false := by
  rw [chContains_false_iff]
  intro c hc hcn
  subst hcn
  rcases mem_joinSep_sub sep L '\n' hc with h1 | ⟨x, hx, hcx⟩
  · exact noNL_chars hsep '\n' h1 rfl
  · exact noNL_chars (h x hx) '\n' hcx rfl

/-! ## Heads of the lines of a string under the after-newline invariant -/

theorem lines_heads_of_afterNL {good : Char → Bool} {s : String}
    (h : afterNLOk good s.data = true) :
    ∀ x ∈ stringLines s,
      x.data.head? = s.data.head? ∨ x = "" ∨
        ∃ c, x.data.head? = some c ∧ good c = true := by
  intro x hx
  obtain ⟨h0, t0, hcl⟩ := charLines_exists_cons s.data
  simp only [stringLines, hcl, List.map_cons, List.mem_cons] at hx
  rcases hx with h1 | h1
  · subst h1
    have hh := charLines_headD_head s.data
    rw [hcl] at hh
    simp only [List.headD_cons] at hh
    by_cases hs : s.data.head? = some '\n'
    · rw [if_pos hs] at hh
      right; left
      cases h0 with
      | nil => rfl
      | cons a b => simp at hh
    · rw [if_neg hs] at hh
      left
      exact hh
  · obtain ⟨y, hy, rfl⟩ := List.mem_map.mp h1
    have hgood := charLines_tail_head_good good s.data h y (by rw [hcl]; simpa using hy)
    rcases hgood with h2 | ⟨c, hc1, hc2⟩
    · right; left
      rw [h2]
    · right; right
      exact ⟨c, hc1, hc2⟩

theorem fm_wrapped_heads {pre mid post : String} {c0 : Char}
    (hprehd : pre.data.head? = some c0) (hprenl : chContains pre '\n' = false)
    (hmid : afterNLOk fmGood mid.data = true)
    (hpostnl : chContains post '\n' = false)
    (hposthd : ∀ c, post.data.head? = some c → fmGood c = true) :
    ∀ x ∈ stringLines (pre ++ mid ++ post),
      x.data.head? = some c0 ∨ x = "" ∨
        ∃ c, x.data.head? = some c ∧ fmGood c = true := by
  have hdata : (pre ++ mid ++ post).data = pre.data ++ (mid.data ++ post.data) := by
    simp [strData_append]
  have hpres : ∀ c ∈ pre.data, c ≠ '\n' := noNL_chars hprenl
  have hposts : ∀ c ∈ post.data, c ≠ '\n' := noNL_chars hpostnl
  have hafter : afterNLOk fmGood (pre ++ mid ++ post).data = true := by
    rw [hdata]
    refine afterNLOk_append fmGood pre.data _ (afterNLOk_of_noNL _ _ hpres) ?_ ?_
    · refine afterNLOk_append fmGood mid.data post.data hmid
        (afterNLOk_of_noNL _ _ hposts) ?_
      intro _ c hc
      exact hposthd c hc
    · intro hlast
      exact absurd rfl (hpres '\n' (List.mem_of_mem_getLast? hlast))
  have hshead : (pre ++ mid ++ post).data.head? = some c0 := by
    rw [hdata]
    cases hpd : pre.data with
    | nil => rw [hpd] at hprehd; simp at hprehd
    | cons a r =>
      rw [hpd] at hprehd
      have ha : a = c0 := by simpa using hprehd
      rw [List.cons_append]
      simp [ha]
  intro x hx
  rcases lines_heads_of_afterNL hafter x hx with h1 | h1 | h1
  · left; rw [h1, hshead]
  · right; left; exact h1
  · right; right; exact h1

/-! ## The inference-branch front matter as an explicit join -/

theorem mkAutoFrontmatter_none_eq (today T D C : String) (tags : List String) :
    mkAutoFrontmatter today T D C tags none = joinNL
      ["---",
       "title: \"" ++ T ++ "\"",
       "description: \"" ++ D ++ "\"",
       "date: \"" ++ today ++ "\"",
       "tags: [" ++ joinSep ", " (tags.map (fun tag => "\"" ++ tag ++ "\"")) ++ "]",
       "category: \"" ++ C ++ "\"",
       "---"] := by
  unfold mkAutoFrontmatter joinNL
  simp only [List.foldl_cons, List.foldl_nil, String.append_assoc]
  rfl

theorem mkAutoFrontmatter_sev_falsy (today T D C : String) (tags : List String)
    {sev : Option String} (h : sev = none ∨ sev = some "") :
    mkAutoFrontmatter today T D C tags sev = mkAutoFrontmatter today T D C tags none := by
  rcases h with rfl | rfl
  · rfl
  · rfl


theorem generateMDXFromLines_none_mdx (today : String) (lines : List String)
    (title category severity : Option String)
    (hfm : (extractFrontmatterLines lines).1 = none) :
    (generateMDXFromLines today lines title category severity none).mdx =
      mkAutoFrontmatter today
        (finalTitleOf title (issueTextOf (parseIncidentLines lines)))
        (descriptionOf (issueTextOf (parseIncidentLines lines)))
        (finalCategoryOf category)
        (extractTags (joinNL lines)) severity ++
      "\n" ++ buildBody (parseIncidentLines lines) := by
  simp only [generateMDXFromLines, hfm]
  rfl

theorem issueText_afterNL {p : ParsedSections} (hp : SectionsOK p) :
    afterNLOk fmGood (issueTextOf p).data = true := by
  obtain ⟨o1, _, _, _, _, _, _, _⟩ := hp
  refine afterNLOk_joinSep fmGood " " (by decide) ?_ (by decide) p.issue ?_
  · intro c hc
    have h3 : ' ' = c := Option.some.inj hc
    rw [← h3]
    decide
  · intro it hit
    rcases o1 it hit with h | h
    · exact afterNLOk_of_noNL _ _ (noNL_chars h)
    · refine afterNLOk_mono ?_ it.data h.2
      intro c hc
      have : c = '|' := by simpa [pipeChar] using hc
      simp [fmGood, this]

theorem autoTitle_afterNL {issueText : String} (h : afterNLOk fmGood issueText.data = true) :
    afterNLOk fmGood (autoTitle issueText).data = true := by
  simp only [autoTitle]
  split
  · refine afterNLOk_strTake _ _ _ (afterNLOk_jsTrim _ _ ?_)
    refine afterNLOk_headD _ _ _ (by rfl) ?_
    intro p hp
    exact afterNLOk_splitAny_piece _ _ _ h p hp
  · decide

theorem description_afterNL {issueText : String} (h : afterNLOk fmGood issueText.data = true) :
    afterNLOk fmGood (descriptionOf issueText).data = true := by
  unfold descriptionOf
  have hA : afterNLOk fmGood (strTake 150 (joinSep ". "
      (((splitSentences issueText).filter (fun s => jsTrim s ≠ "")).take 2))).data = true := by
    refine afterNLOk_strTake _ _ _ ?_
    refine afterNLOk_joinSep fmGood ". " (by decide) ?_ (by decide) _ ?_
    · intro c hc
      have h3 : '.' = c := Option.some.inj hc
      rw [← h3]
      decide
    · intro it hit
      have h4 : it ∈ (splitSentences issueText).filter (fun s => jsTrim s ≠ "") :=
        (List.take_subset _ _) hit
      have h5 : it ∈ splitSentences issueText := List.mem_of_mem_filter h4
      exact afterNLOk_splitAny_piece _ _ _ h it h5
  rw [strData_append]
  refine afterNLOk_append fmGood _ _ hA (by decide) ?_
  intro _ c hc
  have h3 : '.' = c := Option.some.inj hc
  rw [← h3]
  decide

theorem finalTitle_afterNL {title : Option String} {issueText : String}
    (ht : ∀ s, title = some s → chContains s '\n' = false)
    (h : afterNLOk fmGood issueText.data = true) :
    afterNLOk fmGood (finalTitleOf title issueText).data = true := by
  cases title with
  | none => exact autoTitle_afterNL h
  | some t =>
    show afterNLOk fmGood (if t ≠ "" then t else autoTitle issueText).data = true
    split
    · exact afterNLOk_of_noNL _ _ (noNL_chars (ht t rfl))
    · exact autoTitle_afterNL h

theorem finalCategory_noNL {category : Option String}
    (hc : ∀ s, category = some s → chContains s '\n' = false) :
    chContains (finalCategoryOf category) '\n' = false := by
  cases category with
  | none => decide
  | some c =>
    show chContains (if c ≠ "" then c else "azure-troubleshooting") '\n' = false
    split
    · exact hc c rfl
    · decide


theorem autoFM_lines_heads {today T D C : String} {tags : List String}
    (hT : afterNLOk fmGood T.data = true)
    (hD : afterNLOk fmGood D.data = true)
    (htoday : chContains today '\n' = false)
    (hC : chContains C '\n' = false)
    (htags : ∀ t ∈ tags, chContains t '\n' = false) :
    ∀ x ∈ stringLines (mkAutoFrontmatter today T D C tags none),
      x = "" ∨ ∃ c, x.data.head? = some c ∧ fmHead c = true := by
  rw [mkAutoFrontmatter_none_eq, stringLines_joinNL _ (by simp)]
  unfold linesOfAll
  intro x hx
  simp only [List.map_cons, List.map_nil, List.flatten_cons, List.flatten_nil,
    List.append_nil, List.mem_append, or_assoc] at hx
  have hquote : ∀ c : Char, ("\"" : String).data.head? = some c → fmGood c = true := by
    intro c hc
    have h3 : '"' = c := Option.some.inj hc
    rw [← h3]
    decide
  have hbracket : ∀ c : Char, ("]" : String).data.head? = some c → fmGood c = true := by
    intro c hc
    have h3 : ']' = c := Option.some.inj hc
    rw [← h3]
    decide
  have hwrap : ∀ (pre mid post : String) (c0 : Char),
      pre.data.head? = some c0 → chContains pre '\n' = false →
      afterNLOk fmGood mid.data = true → chContains post '\n' = false →
      (∀ c, post.data.head? = some c → fmGood c = true) →
      x ∈ stringLines (pre ++ mid ++ post) → fmHead c0 = true →
      x = "" ∨ ∃ c, x.data.head? = some c ∧ fmHead c = true := by
    intro pre mid post c0 h1 h2 h3 h4 h5 hmem hc0
    rcases fm_wrapped_heads h1 h2 h3 h4 h5 x hmem with hh | hh | ⟨c, hcc1, hcc2⟩
    · exact Or.inr ⟨c0, hh, hc0⟩
    · exact Or.inl hh
    · exact Or.inr ⟨c, hcc1, by simp [fmHead, hcc2]⟩
  rcases hx with h | h | h | h | h | h | h
  · rw [show stringLines "---" = ["---"] from rfl, List.mem_singleton] at h
    subst h
    exact Or.inr ⟨'-', rfl, by decide⟩
  · exact hwrap "title: \"" T "\"" 't' rfl (by decide) hT (by decide) hquote h (by decide)
  · exact hwrap "description: \"" D "\"" 'd' rfl (by decide) hD (by decide) hquote h
      (by decide)
  · exact hwrap "date: \"" today "\"" 'd' rfl (by decide)
      (afterNLOk_of_noNL _ _ (noNL_chars htoday)) (by decide) hquote h (by decide)
  · refine hwrap "tags: [" (joinSep ", " (tags.map (fun tag => "\"" ++ tag ++ "\"")))
      "]" 't' rfl (by decide) ?_ (by decide) hbracket h (by decide)
    refine afterNLOk_of_noNL _ _ (noNL_chars (joinSep_noNL (by decide) ?_))
    intro q hq
    obtain ⟨t, ht, rfl⟩ := List.mem_map.mp hq
    exact chContains_append_false (chContains_append_false (by decide) (htags t ht))
      (by decide)
  · exact hwrap "category: \"" C "\"" 'c' rfl (by decide)
      (afterNLOk_of_noNL _ _ (noNL_chars hC)) (by decide) hquote h (by decide)
  · rw [show stringLines "---" = ["---"] from rfl, List.mem_singleton] at h
    subst h
    exact Or.inr ⟨'-', rfl, by decide⟩

theorem fmHead_ne_s {c : Char} (h : fmHead c = true) : ¬ c = 's' := by
  intro hcs
  subst hcs
  exact absurd h (by decide)

theorem not_startsWith_severity {x : String} (h : x.data.head? ≠ some 's') :
    strStartsWith x "severity:" = false := by
  by_contra hc
  have h2 : strStartsWith x "severity:" = true := eq_true_of_ne_false hc
  obtain ⟨r, hr⟩ := (strStartsWith_iff _ _).mp h2
  apply h
  rw [hr]
  rfl

/-! ## Fold bounds for the table recognizer -/

theorem foldl_min_ge {n : Nat} : ∀ (cs : List Nat) (c : Nat), n ≤ c →
    (∀ x ∈ cs, n ≤ x) → n ≤ cs.foldl Nat.min c := by
  intro cs
  induction cs with
  | nil => intro c hc _; exact hc
  | cons x xs ih =>
    intro c hc h
    rw [List.foldl_cons]
    exact ih (Nat.min c x) (Nat.le_min.mpr ⟨hc, h x (by simp)⟩)
      (fun y hy => h y (by simp [hy]))

theorem foldl_max_mem : ∀ (cs : List Nat) (c : Nat),
    cs.foldl Nat.max c = c ∨ cs.foldl Nat.max c ∈ cs := by
  intro cs
  induction cs with
  | nil => intro c; exact Or.inl rfl
  | cons x xs ih =>
    intro c
    rw [List.foldl_cons]
    rcases ih (Nat.max c x) with h | h
    · rcases Nat.le_total c x with hcx | hcx
      · right
        have hmx : Nat.max c x = x := Nat.max_eq_right hcx
        rw [h, hmx]
        simp
      · left
        have hmx : Nat.max c x = c := Nat.max_eq_left hcx
        rw [h, hmx]
    · right
      simp [h]

theorem foldl_min_mem : ∀ (cs : List Nat) (c : Nat),
    cs.foldl Nat.min c = c ∨ cs.foldl Nat.min c ∈ cs := by
  intro cs
  induction cs with
  | nil => intro c; exact Or.inl rfl
  | cons x xs ih =>
    intro c
    rw [List.foldl_cons]
    rcases ih (Nat.min c x) with h | h
    · rcases Nat.le_total c x with hcx | hcx
      · left
        have hmn : Nat.min c x = c := Nat.min_eq_left hcx
        rw [h, hmn]
      · right
        have hmn : Nat.min c x = x := Nat.min_eq_right hcx
        rw [h, hmn]
        simp
    · right
      simp [h]

theorem foldl_max_base_le : ∀ (cs : List Nat) (c : Nat), c ≤ cs.foldl Nat.max c := by
  intro cs
  induction cs with
  | nil => intro c; exact Nat.le_refl c
  | cons x xs ih =>
    intro c
    rw [List.foldl_cons]
    exact Nat.le_trans (Nat.le_max_left c x) (ih (Nat.max c x))

theorem foldl_max_ge_mem : ∀ (cs : List Nat) (c x : Nat), x ∈ cs →
    x ≤ cs.foldl Nat.max c := by
  intro cs
  induction cs with
  | nil => intro c x hx; simp at hx
  | cons y ys ih =>
    intro c x hx
    rw [List.foldl_cons]
    rcases List.mem_cons.mp hx with h | h
    · subst h
      exact Nat.le_trans (Nat.le_max_right c x) (foldl_max_base_le ys _)
    · exact ih _ x h

theorem linesOfAll_singletons {rows : List String}
    (h : ∀ r ∈ rows, chContains r '\n' = false) : linesOfAll rows = rows := by
  induction rows with
  | nil => rfl
  | cons r rs ih =>
    unfold linesOfAll
    rw [List.map_cons, List.flatten_cons, stringLines_noNL (h r (by simp))]
    have ih2 := ih (fun x hx => h x (by simp [hx]))
    unfold linesOfAll at ih2
    rw [ih2]
    rfl

/-- The rendered table written out: a padded header row, a separator row, one
padded row per remaining line. -/
theorem linesToMarkdownTable_eq (l0 : String) (ls : List String) :
    linesToMarkdownTable (l0 :: ls) = joinNL (
      mkPipeRow (padRow (((rowCells l0 :: ls.map rowCells).map List.length).foldl Nat.max 0)
        (rowCells l0)) ::
      mkPipeRow ((padRow (((rowCells l0 :: ls.map rowCells).map List.length).foldl Nat.max 0)
        (rowCells l0)).map (fun _ => "---")) ::
      ((ls.map rowCells).map
        (padRow (((rowCells l0 :: ls.map rowCells).map List.length).foldl Nat.max 0))).map
        mkPipeRow) := rfl

theorem linesToMarkdownTable_length {tl : List String} (hne : tl ≠ [])
    (h : ∀ t ∈ tl, chContains t '\n' = false) :
    (stringLines (linesToMarkdownTable tl)).length = tl.length + 1 := by
  cases tl with
  | nil => exact absurd rfl hne
  | cons l0 ls =>
    have hcellnl : ∀ l ∈ l0 :: ls, ∀ cell ∈ rowCells l, chContains cell '\n' = false := by
      intro l hl cell hcell
      rw [chContains_false_iff]
      intro c hc hcn
      subst hcn
      exact ((chContains_false_iff l '\n').mp (h l hl)) '\n'
        (rowCells_chars l cell hcell '\n' hc) rfl
    rw [linesToMarkdownTable_eq, stringLines_joinNL _ (by simp)]
    rw [linesOfAll_singletons]
    · simp
    · intro r hr
      rcases List.mem_cons.mp hr with h1 | h1
      · subst h1
        refine mkPipeRow_noNL ?_
        intro x hx
        rcases padRow_mem x hx with h2 | h2
        · exact hcellnl l0 (by simp) x h2
        · subst h2; decide
      · rcases List.mem_cons.mp h1 with h2 | h2
        · subst h2
          refine mkPipeRow_noNL ?_
          intro x hx
          obtain ⟨_, _, rfl⟩ := List.mem_map.mp hx
          decide
        · obtain ⟨row, hrow, rfl⟩ := List.mem_map.mp h2
          obtain ⟨row0, hrow0, rfl⟩ := List.mem_map.mp hrow
          refine mkPipeRow_noNL ?_
          intro x hx
          rcases padRow_mem x hx with h3 | h3
          · obtain ⟨l1, hl1, rfl⟩ := List.mem_map.mp hrow0
            exact hcellnl l1 (by simp [hl1]) x h3
          · subst h3; decide

/-! ## Claims -/

/-- C1 (corrected): with a caller-supplied metadata map, the generated
document's metadata block is the supplied map re-serialized in place — every
key keeps its position and every line starts with its key — but each value is
re-quoted with double quotes, so the block is not byte-identical to a supplied
textual block (see the counterexample). -/
theorem claim1_frontmatter_reserialized (today rawText : String)
    (title category severity : Option String) (fm : Frontmatter) :
    (generateMDX today rawText title category severity (some fm)).mdx =
      joinNL (serializeFMBlockLines fm) ++ "\n" ++
        buildBody (parseIncidentLines
          (if (extractFrontmatterLines (stringLines rawText)).1.isSome then
            (extractFrontmatterLines (stringLines rawText)).2
          else stringLines rawText)) ∧
    ∀ kv ∈ fm, strStartsWith (serializeFMLine kv) (kv.1 ++ ": ") = true := by
  constructor
  · rfl
  · intro kv _
    rcases kv with ⟨k, v⟩
    cases v with
    | str s =>
      rw [show serializeFMLine (k, FMValue.str s) = k ++ ": \"" ++ s ++ "\"" from rfl]
      have h2 : (k ++ ": \"" ++ s ++ "\"" : String) = (k ++ ": ") ++ ("\"" ++ s ++ "\"") := by
        simp only [String.append_assoc]
        rfl
      rw [h2]
      exact strStartsWith_append_self _ _
    | list vs =>
      rw [show serializeFMLine (k, FMValue.list vs) =
        k ++ ": [" ++ joinSep ", " (vs.map (fun v => "\"" ++ v ++ "\"")) ++ "]" from rfl]
      have h2 : (k ++ ": [" ++ joinSep ", " (vs.map (fun v => "\"" ++ v ++ "\"")) ++ "]" :
          String) = (k ++ ": ") ++
            ("[" ++ joinSep ", " (vs.map (fun v => "\"" ++ v ++ "\"")) ++ "]") := by
        simp only [String.append_assoc]
        rfl
      rw [h2]
      exact strStartsWith_append_self _ _

/-- C1 counterexample: the supplied metadata line `severity: low` is re-quoted
to `severity: "low"` in the output, so the output block is not byte-identical
to the supplied block. -/
theorem claim1_counterexample :
    (stringLines "---\nseverity: low\n---\nIssue:\nx").contains "severity: low" = true ∧
    (stringLines (generateMDX "2026-01-01" "---\nseverity: low\n---\nIssue:\nx"
        none none none none).mdx).contains "severity: low" = false ∧
    (stringLines (generateMDX "2026-01-01" "---\nseverity: low\n---\nIssue:\nx"
        none none none none).mdx).contains "severity: \"low\"" = true := by
  decide

/-- C2 (corrected): a block meeting the claimed acceptance conditions is
accepted, and the rendered grid has one pipe row per input line plus one
separator row, every row padded to the maximum number of split cells — a
count that keeps empty cells and can exceed the recognizer's per-line column
count (see the counterexample). -/
theorem claim2_table_grid (L : List String)
    (hlen : 2 ≤ L.length)
    (htab : ∀ l ∈ L, chContains l '\t' = true)
    (hnl : ∀ l ∈ L, chContains l '\n' = false)
    (hmin : ∀ l ∈ L, 2 ≤ colCount l)
    (hvar : ∀ l₁ ∈ L, ∀ l₂ ∈ L, colCount l₁ - colCount l₂ ≤ 1) :
    isTableLike L = true ∧
    (stringLines (linesToMarkdownTable L)).length = L.length + 1 ∧
    ∀ r ∈ L.map rowCells,
      (padRow (((L.map rowCells).map List.length).foldl Nat.max 0) r).length =
        ((L.map rowCells).map List.length).foldl Nat.max 0 := by
  refine ⟨?_, linesToMarkdownTable_length (by intro h0; rw [h0] at hlen; simp at hlen) hnl, ?_⟩
  · cases L with
    | nil => simp at hlen
    | cons l0 rest =>
      have hTabs : (l0 :: rest).all (fun l => chContains l '\t') = true :=
        List.all_eq_true.mpr htab
      simp only [isTableLike]
      rw [if_neg (Nat.not_lt.mpr hlen)]
      rw [hTabs]
      simp only [Bool.not_true, Bool.false_and, Bool.false_eq_true, if_false]
      simp only [List.map_cons]
      simp only [Bool.and_eq_true, decide_eq_true_eq]
      constructor
      · exact foldl_min_ge _ _ (hmin l0 (by simp))
          (fun x hx => by
            obtain ⟨l, hl, rfl⟩ := List.mem_map.mp hx
            exact hmin l (by simp [hl]))
      · obtain hmax := foldl_max_mem (rest.map colCount) (colCount l0)
        obtain hmin' := foldl_min_mem (rest.map colCount) (colCount l0)
        have hex : ∃ l₁ ∈ l0 :: rest,
            (rest.map colCount).foldl Nat.max (colCount l0) = colCount l₁ := by
          rcases hmax with h | h
          · exact ⟨l0, by simp, h⟩
          · obtain ⟨l, hl, hlc⟩ := List.mem_map.mp h
            exact ⟨l, by simp [hl], hlc.symm⟩
        have hex' : ∃ l₂ ∈ l0 :: rest,
            (rest.map colCount).foldl Nat.min (colCount l0) = colCount l₂ := by
          rcases hmin' with h | h
          · exact ⟨l0, by simp, h⟩
          · obtain ⟨l, hl, hlc⟩ := List.mem_map.mp h
            exact ⟨l, by simp [hl], hlc.symm⟩
        obtain ⟨l₁, hl₁, he₁⟩ := hex
        obtain ⟨l₂, hl₂, he₂⟩ := hex'
        rw [he₁, he₂]
        exact hvar l₁ hl₁ l₂ hl₂
  · intro r hr
    have hle : r.length ≤ ((L.map rowCells).map List.length).foldl Nat.max 0 :=
      foldl_max_ge_mem _ _ _ (List.mem_map.mpr ⟨r, hr, rfl⟩)
    unfold padRow
    rw [List.length_take, List.length_append, List.length_replicate]
    have hsum : r.length + (((L.map rowCells).map List.length).foldl Nat.max 0 - r.length) =
        ((L.map rowCells).map List.length).foldl Nat.max 0 := by omega
    rw [hsum]
    exact Nat.min_self _

/-- C2 counterexample: a block accepted with per-line column counts `[2, 2]`
(maximum 2) renders as a three-column grid, because the renderer splits rows
keeping empty cells while the recognizer counts only non-blank cells. -/
theorem claim2_counterexample :
    isTableLike ["a\t\tb", "c\td"] = true ∧
    (["a\t\tb", "c\td"].map colCount) = [2, 2] ∧
    linesToMarkdownTable ["a\t\tb", "c\td"] =
      "| a |  | b |\n| --- | --- | --- |\n| c | d |  |" := by
  decide

/-- C2 witness. -/
theorem claim2_witness :
    2 ≤ (["a\tb", "c\td"] : List String).length ∧
    (isTableLike ["a\tb", "c\td"] = true ∧
      (stringLines (linesToMarkdownTable ["a\tb", "c\td"])).length =
        (["a\tb", "c\td"] : List String).length + 1 ∧
      ∀ r ∈ (["a\tb", "c\td"] : List String).map rowCells,
        (padRow ((((["a\tb", "c\td"] : List String).map rowCells).map List.length).foldl
            Nat.max 0) r).length =
          (((["a\tb", "c\td"] : List String).map rowCells).map List.length).foldl Nat.max 0) :=
  ⟨by decide, claim2_table_grid ["a\tb", "c\td"] (by decide) (by decide) (by decide)
    (by decide) (by decide)⟩

/-- C3 (corrected): the `STEP n:` marker itself is stripped from a rendered
heading, and scenario D produces exactly the two headings `### OPEN PORT` and
`### VERIFY`, each followed by its body line as a bullet; but a title that
itself contains the word STEP keeps it (see the counterexample), so the
rendered heading does not in general exclude the substring "STEP". -/
theorem claim3_scenario_d :
    (parseIncidentText
        "Fix:\nSTEP 1: OPEN PORT\nDetails here.\n\nSTEP 2: VERIFY\nMore details.").fix =
      ["STEP 1: OPEN PORT", "Details here.", "STEP 2: VERIFY", "More details."] ∧
    buildFixSection ["STEP 1: OPEN PORT", "Details here.", "STEP 2: VERIFY",
        "More details."] =
      "### OPEN PORT\n\n\n- Details here.\n### VERIFY\n\n\n- More details." ∧
    hasSub "### OPEN PORT\n\n\n- Details here.\n### VERIFY\n\n\n- More details."
      "STEP" = false := by
  decide

/-- C3 counterexample: the fix line `STEP 1: STEP TWO` renders as the heading
`### STEP TWO`, which still contains the substring "STEP". -/
theorem claim3_counterexample :
    buildFixSection ["STEP 1: STEP TWO"] = "### STEP TWO" ∧
    hasSub "### STEP TWO" "STEP" = true := by
  decide

/-- C4 (confirmed): the body of every generated document carries the seven
fixed headings exactly once each, in canonical order, with Prevention always
present, and the Final Note heading appended exactly when its section has at
least one item. -/
theorem claim4_section_headings (lines : List String)
    (h : ∀ l ∈ lines, chContains l '\n' = false) :
    (stringLines (buildBody (parseIncidentLines lines))).filter
        (fun l => decide (l ∈ bodyHeadings)) =
      ["## Issue", "## Impact", "## Root Cause", "## Fix", "## Validation",
       "## Lessons Learned", "## Prevention"] ++
        (if (parseIncidentLines lines).finalNote.length > 0 then ["## Final Note"]
         else []) :=
  body_heading_lines (parseIncidentLines_ok lines h)

/-- C4 witness. -/
theorem claim4_witness :
    (∀ l ∈ (["Issue:", "Broken", "Final note:", "Done"] : List String),
      chContains l '\n' = false) ∧
    (stringLines (buildBody (parseIncidentLines
        ["Issue:", "Broken", "Final note:", "Done"]))).filter
        (fun l => decide (l ∈ bodyHeadings)) =
      ["## Issue", "## Impact", "## Root Cause", "## Fix", "## Validation",
       "## Lessons Learned", "## Prevention"] ++
        (if (parseIncidentLines ["Issue:", "Broken", "Final note:", "Done"]).finalNote.length
            > 0 then ["## Final Note"] else []) :=
  ⟨by decide, claim4_section_headings ["Issue:", "Broken", "Final note:", "Done"] (by decide)⟩

/-- C5 (corrected): without a metadata block, and with no (or an empty)
supplied severity and single-line caller title, category, and date, no line of
the generated document starts with a severity key; a supplied nonempty
severity is emitted, however (see the counterexample). -/
theorem claim5_no_severity_key (today rawText : String)
    (title category severity : Option String)
    (hfm : (extractFrontmatterLines (stringLines rawText)).1 = none)
    (hsev : severity = none ∨ severity = some "")
    (htoday : chContains today '\n' = false)
    (htitle : ∀ s, title = some s → chContains s '\n' = false)
    (hcat : ∀ s, category = some s → chContains s '\n' = false) :
    ∀ line ∈ stringLines (generateMDX today rawText title category severity none).mdx,
      strStartsWith line "severity:" = false := by
  intro line hline
  have hmdx := generateMDXFromLines_none_mdx today (stringLines rawText)
    title category severity hfm
  rw [show generateMDX today rawText title category severity none =
      generateMDXFromLines today (stringLines rawText) title category severity none from rfl,
    hmdx, mkAutoFrontmatter_sev_falsy _ _ _ _ _ hsev, stringLines_append_nl] at hline
  have hsecOK := parseIncidentLines_ok (stringLines rawText) (stringLines_mem_noNL rawText)
  rcases List.mem_append.mp hline with h | h
  · have hIT := issueText_afterNL hsecOK
    rcases autoFM_lines_heads (finalTitle_afterNL htitle hIT) (description_afterNL hIT)
        htoday (finalCategory_noNL hcat) (extractTags_noNL _) line h with h1 | ⟨c, hc1, hc2⟩
    · rw [h1]; decide
    · refine not_startsWith_severity ?_
      intro hs
      rw [hc1] at hs
      exact fmHead_ne_s hc2 (Option.some.inj hs)
  · rcases buildBody_line_shapes hsecOK line h with h1 | h1 | h1 | h1 | h1
    · rw [h1]; decide
    · fin_cases h1 <;> decide
    · refine not_startsWith_severity ?_
      intro hs
      unfold SecLineOk at h1
      rw [hs] at h1
      exact absurd h1 (by decide)
    · refine not_startsWith_severity ?_
      intro hs
      obtain ⟨r, hr⟩ := (strStartsWith_iff _ _).mp h1
      rw [hr] at hs
      exact absurd (Option.some.inj hs) (by decide)
    · rw [h1]; decide

/-- C5 counterexample: with no metadata block but a supplied severity, the
generated front matter does contain a severity entry. -/
theorem claim5_counterexample :
    (extractFrontmatterLines (stringLines "hello")).1 = none ∧
    (stringLines (generateMDX "2026-01-01" "hello" none none (some "high") none).mdx).contains
      "severity: \"high\"" = true := by
  decide

/-- C5 witness. -/
theorem claim5_witness :
    (extractFrontmatterLines (stringLines "world")).1 = none ∧
    ∀ line ∈ stringLines (generateMDX "2026-01-02" "world" none none none none).mdx,
      strStartsWith line "severity:" = false :=
  ⟨by decide, claim5_no_severity_key "2026-01-02" "world" none none none (by decide)
    (Or.inl rfl) (by decide) (fun s hs => Option.noConfusion hs)
    (fun s hs => Option.noConfusion hs)⟩

/-- C6 (corrected): an unrecognized header-like line such as "Symptoms" never
becomes a section or a `## Symptoms` heading, and with a section active it and
the following lines are kept as that section's ordinary content; but with no
active section such lines are silently dropped (see the counterexample). -/
theorem claim6_unrecognized_header (lines : List String)
    (h : ∀ l ∈ lines, chContains l '\n' = false) :
    (∀ x ∈ stringLines (buildBody (parseIncidentLines lines)), x ≠ "## Symptoms") ∧
    detectSectionHeader "Symptoms" = none ∧
    (parseIncidentText "Issue:\nBroken thing\nSymptoms\nSlow login\nTimeouts").issue =
      ["Broken thing", "Symptoms", "Slow login", "Timeouts"] := by
  refine ⟨?_, by decide, by decide⟩
  intro x hx
  rcases buildBody_line_shapes (parseIncidentLines_ok lines h) x hx with
    h1 | h1 | h1 | h1 | h1
  · rw [h1]; decide
  · fin_cases h1 <;> decide
  · intro hx2
    subst hx2
    exact absurd h1 (by decide)
  · intro hx2
    subst hx2
    exact absurd h1 (by decide)
  · rw [h1]; decide

/-- C6 counterexample: with no active section, the unrecognized header
"Symptoms" and the line after it are dropped entirely — nothing is parsed. -/
theorem claim6_counterexample :
    parseIncidentText "Symptoms\nline A" = emptySections := by
  decide

/-- C6 witness. -/
theorem claim6_witness :
    (∀ l ∈ (["Issue:", "Broken"] : List String), chContains l '\n' = false) ∧
    ((∀ x ∈ stringLines (buildBody (parseIncidentLines ["Issue:", "Broken"])),
        x ≠ "## Symptoms") ∧
      detectSectionHeader "Symptoms" = none ∧
      (parseIncidentText "Issue:\nBroken thing\nSymptoms\nSlow login\nTimeouts").issue =
        ["Broken thing", "Symptoms", "Slow login", "Timeouts"]) :=
  ⟨by decide, claim6_unrecognized_header ["Issue:", "Broken"] (by decide)⟩

/-- C7 (confirmed): a missing, empty, or whitespace-only rawText is rejected
with a 400 error before any parsing; no document is produced. -/
theorem claim7_empty_input_rejected (today : String) (req : ConvertRequest)
    (h : ∀ s, req.rawText = some s → jsTrim s = "") :
    ∃ msg, POST today req = ApiResponse.err 400 msg := by
  obtain ⟨rt, tt, cc, sv, ff⟩ := req
  cases rt with
  | none => exact ⟨"rawText is required and must be a string", rfl⟩
  | some s =>
    have hs := h s rfl
    by_cases hse : s = ""
    · refine ⟨"rawText is required and must be a string", ?_⟩
      show (if s = "" then ApiResponse.err 400 "rawText is required and must be a string"
        else if (jsTrim s).data.length = 0 then ApiResponse.err 400 "rawText cannot be empty"
        else ApiResponse.ok (generateMDX today s tt cc sv ff)) = _
      rw [if_pos hse]
    · refine ⟨"rawText cannot be empty", ?_⟩
      show (if s = "" then ApiResponse.err 400 "rawText is required and must be a string"
        else if (jsTrim s).data.length = 0 then ApiResponse.err 400 "rawText cannot be empty"
        else ApiResponse.ok (generateMDX today s tt cc sv ff)) = _
      rw [if_neg hse, if_pos (by rw [hs]; rfl)]

/-- C7 witness. -/
theorem claim7_witness :
    (∀ s, (ConvertRequest.mk (some "   ") none none none none).rawText = some s →
      jsTrim s = "") ∧
    ∃ msg, POST "2026-01-01" (ConvertRequest.mk (some "   ") none none none none) =
      ApiResponse.err 400 msg :=
  ⟨fun s hs => by
      have h2 : "   " = s := Option.some.inj hs
      rw [← h2]
      decide,
   claim7_empty_input_rejected "2026-01-01" (ConvertRequest.mk (some "   ") none none none none)
    (fun s hs => by
      have h2 : "   " = s := Option.some.inj hs
      rw [← h2]
      decide)⟩

/-- C8 (corrected): in the inference branch the validator runs on the finished
document and its warnings are surfaced unchanged (and never raised as
failures); but the existing-frontmatter branch skips validation and always
returns an empty warnings list (see the counterexample). -/
theorem claim8_validator_warnings (today : String) (lines : List String)
    (title category severity : Option String) (fm : Frontmatter)
    (hfm : (extractFrontmatterLines lines).1 = none) :
    (generateMDXFromLines today lines title category severity (some fm)).warnings = [] ∧
    (generateMDXFromLines today lines title category severity none).warnings =
      (validateMDX
        (generateMDXFromLines today lines title category severity none).mdx).warnings := by
  constructor
  · rfl
  · have hproj : (generateMDXFromLines today lines title category severity none).warnings =
        (if (validateMDX
            ((generateMDXFromLines today lines title category severity none).mdx)).warnings.length
            > 0
         then (validateMDX
            ((generateMDXFromLines today lines title category severity none).mdx)).warnings
         else []) := by
      simp only [generateMDXFromLines, hfm]
    rw [hproj]
    by_cases hl : (validateMDX
        ((generateMDXFromLines today lines title category severity none).mdx)).warnings.length
        > 0
    · rw [if_pos hl]
    · rw [if_neg hl]
      have h0 : (validateMDX
          ((generateMDXFromLines today lines title category severity
            none).mdx)).warnings = [] :=
        List.eq_nil_of_length_eq_zero (by omega)
      rw [h0]

/-- C8 counterexample: with a supplied metadata block the conversion returns no
warnings even though the validator, run on the finished document, would warn
about the tags format. -/
theorem claim8_counterexample :
    (generateMDX "2026-01-01" "---\ntags: a, b\n---\nIssue:\nx"
        none none none none).warnings = [] ∧
    (validateMDX (generateMDX "2026-01-01" "---\ntags: a, b\n---\nIssue:\nx"
        none none none none).mdx).warnings =
      ["Tags should be formatted as an array [tag1, tag2]"] := by
  decide

/-- C8 witness. -/
theorem claim8_witness :
    (extractFrontmatterLines (stringLines "hello")).1 = none ∧
    ((generateMDXFromLines "2026-01-01" (stringLines "hello") none none none
        (some [("title", FMValue.str "t")])).warnings = [] ∧
      (generateMDXFromLines "2026-01-01" (stringLines "hello") none none none
          none).warnings =
        (validateMDX (generateMDXFromLines "2026-01-01" (stringLines "hello") none none none
          none).mdx).warnings) :=
  ⟨by decide, claim8_validator_warnings "2026-01-01" (stringLines "hello") none none none
    [("title", FMValue.str "t")] (by decide)⟩

/-- C9 (corrected): already-bulleted or numbered lines are preserved verbatim
only when they do not match the trailing-colon hierarchy pattern (and are not
swallowed as nested content); in particular a section whose items are all
plain bullet or numbered lines renders as exactly those lines. A bulleted line
ending in a colon is rewritten instead (see the counterexample). -/
theorem claim9_bullets_preserved (items : List String) (hne : items ≠ [])
    (h : ∀ l ∈ items, (isBulletLine l || isNumberedLine l) = true ∧
      jsHierMatch l = none ∧ strStartsWith l "|" = false) :
    buildSection items = joinNL items := by
  have key : ∀ (L acc : List String),
      (∀ l ∈ L, (isBulletLine l || isNumberedLine l) = true ∧
        jsHierMatch l = none ∧ strStartsWith l "|" = false) →
      buildSectionAux L.length acc L = acc ++ L := by
    intro L
    induction L with
    | nil => intro acc _; simp [buildSectionAux]
    | cons line rest ih =>
      intro acc hL
      obtain ⟨hb, hh, hp⟩ := hL line (by simp)
      show buildSectionAux (rest.length + 1) acc (line :: rest) = _
      simp only [buildSectionAux]
      split
      · rename_i hpin
        rw [hp] at hpin
        exact absurd hpin Bool.false_ne_true
      · split
        · rename_i grp hg
          rw [hh] at hg
          exact Option.noConfusion hg
        · unfold buildSectionFallback
          rw [if_pos hb]
          rw [ih (acc ++ [line]) (fun l hl => hL l (by simp [hl]))]
          simp
  unfold buildSection
  rw [if_neg (fun h0 => hne (List.eq_nil_of_length_eq_zero h0))]
  rw [key items [] h]
  rw [List.nil_append]

/-- C9 counterexample: the already-bulleted line `- foo:` followed by `bar` is
re-bulleted to `- - foo:` by the hierarchy branch, so it is not preserved
verbatim. -/
theorem claim9_counterexample :
    isBulletLine "- foo:" = true ∧
    buildSection ["- foo:", "bar"] = "- - foo:\n  - bar" ∧
    ¬ "- foo:" ∈ stringLines (buildSection ["- foo:", "bar"]) := by
  decide

/-- C9 witness. -/
theorem claim9_witness :
    ((["- a", "2. b"] : List String) ≠ []) ∧
    buildSection ["- a", "2. b"] = joinNL ["- a", "2. b"] :=
  ⟨by decide, claim9_bullets_preserved ["- a", "2. b"] (by decide)
    (by intro l hl; fin_cases hl <;> exact ⟨by decide, by decide, by decide⟩)⟩

/-- C10 (corrected): with no active section and no open table, a nonblank line
that is not itself a section-marker line or a table-control line leaves the
parse state unchanged — it is assigned to no section, appears nowhere, and
produces no warning; a raw input line shaped like an internal marker, however,
activates a section (see the counterexample). -/
theorem claim10_preheader_dropped (s : PState) (line : String)
    (hcur : s.currentSection = none) (hint : s.inTable = false)
    (h1 : sectionMarkerWord (jsTrim line) = none)
    (h2 : jsTrim line ≠ "[[TABLE]]") (h3 : jsTrim line ≠ "[[/TABLE]]") :
    parseStep s line = s := by
  simp only [parseStep, h1, hint, hcur]
  rw [if_neg h2, if_neg h3]
  simp only [Bool.false_eq_true, if_false]
  split
  · rfl
  · rfl

/-- C10 counterexample: a raw body line spelled like the internal marker
`[[SECTION:ISSUE]]`, appearing before any recognized section header, activates
the Issue section, so the following body line is kept rather than discarded. -/
theorem claim10_counterexample :
    (parseIncidentText "[[SECTION:ISSUE]]\nhello").issue = ["hello"] := by
  decide

/-- C10 witness. -/
theorem claim10_witness :
    initPState.currentSection = none ∧
    parseStep initPState "stray content" = initPState :=
  ⟨rfl, claim10_preheader_dropped initPState "stray content" rfl rfl (by decide) (by decide)
    (by decide)⟩

end MVP
